import Mathlib

/-!
Verification of the ElasticBF adaptive Bloom-filter cache (Paperdb).

The development shallow-embeds the core of the repository:

- src/util/mq_schedule.h : the MultiQueue scheduler.  The file holds several
  revisions of the same component; the revision using UpdateHandle
  (InternalMultiQueue, first block) is embedded in namespace
  InternalMultiQueue, and the revision using KeyMayMatch (last block) in
  namespace InternalMultiQueue2.  Machine integers (size_t, uint64_t) are
  embedded as Nat reduced modulo 2 ^ 64 wherever the source arithmetic can
  wrap; C++ double arithmetic of the cost model is embedded as exact
  rational arithmetic.
- src/unnamed/part_000 (table/filter_block.h) : reader constants and the
  inline predicates (IsCold, CanBeLoaded, CanBeEvict, Size, IOs).  The
  corresponding filter_block.cc is not part of the sources, so the bodies
  of FilterBlockBuilder and of the load/evict/match operations of
  FilterBlockReader are modelled from the specification and pinned against
  the concrete bytes and counts asserted by src/table/filter_block_test.cc.

Pointer-linked queue nodes are embedded as values in lists; a node is
identified by its cache key, and the hash index map_ is derived from the
queues (the no-stale-entry invariant of the source).  Removing a node
through a pointer unlinks it from whatever list it is physically in, so
the embedded removal erases the key from every queue.
-/

namespace Paperdb

/-- 2 ^ 64, the modulus of size_t and uint64_t arithmetic in the source. -/
def kWordMod : Nat := 18446744073709551616

/-- uint64_t addition. -/
def add64 (a b : Nat) : Nat := (a + b) % kWordMod

/-- uint64_t subtraction (wraps below zero). -/
def sub64 (a b : Nat) : Nat := (a + (kWordMod - b % kWordMod)) % kWordMod

/-- uint64_t multiplication. -/
def mul64 (a b : Nat) : Nat := (a * b) % kWordMod

/-- kLifeTime from table/filter_block.h (src/unnamed/part_000). -/
def kLifeTime : Nat := 10000

/-- filters_number: the number of filter units a full reader holds, used by
the MultiQueue to size queues_.  The value mirrors kAllFilterUnitsNumber. -/
def filters_number : Nat := 6

/-- The reader state observed by the MultiQueue: the fields of
FilterBlockReader (src/unnamed/part_000) that its public accessors expose.
filterUnits is the size of the resident unit vector filter_units.
readOk is the disk oracle, modelled from the spec for the missing
filter_block.cc: whether the backing-file read issued by this reader
when LoadFilter pages in its next unit succeeds (a failing read makes
LoadFilter return a corruption error and leave the resident list
unchanged; EvictFilter reads nothing from disk). -/
structure FilterReaderState where
  filterUnits : Nat
  initUnitsNumber : Nat
  allUnitsNumber : Nat
  diskSize : Nat
  accessTime : Nat
  sequence : Nat
  fpr : ℚ
  readOk : Bool
deriving DecidableEq, Repr

namespace FilterReaderState

/-- FilterBlockReader::FilterUnitsNumber. -/
def FilterUnitsNumber (r : FilterReaderState) : Nat := r.filterUnits

/-- FilterBlockReader::LoadFilterNumber (the number of initially loaded units). -/
def LoadFilterNumber (r : FilterReaderState) : Nat := r.initUnitsNumber

/-- FilterBlockReader::OneUnitSize. -/
def OneUnitSize (r : FilterReaderState) : Nat := r.diskSize

/-- FilterBlockReader::CanBeLoaded. -/
def CanBeLoaded (r : FilterReaderState) : Bool :=
  r.FilterUnitsNumber < r.allUnitsNumber

/-- FilterBlockReader::CanBeEvict. -/
def CanBeEvict (r : FilterReaderState) : Bool :=
  0 < r.FilterUnitsNumber

/-- FilterBlockReader::IsCold: now_sequence >= sequence_ + kLifeTime, the
addition performed in uint64_t. -/
def IsCold (r : FilterReaderState) (nowSequence : Nat) : Bool :=
  (r.sequence + kLifeTime) % kWordMod ≤ nowSequence

/-- FilterBlockReader::Size: resident units times unit size, in size_t. -/
def Size (r : FilterReaderState) : Nat :=
  mul64 r.FilterUnitsNumber r.diskSize

/-- FilterBlockReader::IOs: fpr ^ k * access_time, with double arithmetic
embedded as exact rational arithmetic. -/
def IOs (r : FilterReaderState) : ℚ :=
  r.fpr ^ r.FilterUnitsNumber * (r.accessTime : ℚ)

/-- FilterBlockReader::LoadIOs. -/
def LoadIOs (r : FilterReaderState) : ℚ :=
  r.fpr ^ (r.FilterUnitsNumber + 1) * (r.accessTime : ℚ)

/-- FilterBlockReader::EvictIOs.  The source asserts the resident vector is
not empty, so the Nat-truncated exponent agrees with the source wherever
the function is invoked. -/
def EvictIOs (r : FilterReaderState) : ℚ :=
  r.fpr ^ (r.FilterUnitsNumber - 1) * (r.accessTime : ℚ)

/-- Modelled from the spec: FilterBlockReader::UpdateState of the missing
filter_block.cc sets access_time and also writes the mirrored sequence. -/
def UpdateState (r : FilterReaderState) (sn : Nat) : FilterReaderState :=
  { r with accessTime := sn, sequence := sn }

/-- Modelled from the spec: the effect on the reader of a successful
LoadFilter of the missing filter_block.cc (one unit added at the high end). -/
def LoadFilterEffect (r : FilterReaderState) : FilterReaderState :=
  { r with filterUnits := r.filterUnits + 1 }

/-- Modelled from the spec: the effect on the reader of a successful
EvictFilter of the missing filter_block.cc (one unit removed from the
high end). -/
def EvictFilterEffect (r : FilterReaderState) : FilterReaderState :=
  { r with filterUnits := r.filterUnits - 1 }

end FilterReaderState

/-- QueueHandle of mq_schedule.h: a user node of a SingleQueue.  The two
sentinel nodes of each list are represented by the list structure itself,
and the reader owned through the node is stored inline. -/
structure QueueHandle where
  key : Nat
  reader : FilterReaderState
deriving DecidableEq, Repr

/-- The MultiQueue state: queues_ (each SingleQueue as a list, head = MRU,
last = LRU) and the usage_ byte counter.  The index map_ is derived from
the queues. -/
structure MQState where
  queues : List (List QueueHandle)
  usage : Nat
deriving DecidableEq, Repr

/-- queues_[i], with the out-of-range read giving the empty list. -/
def getQueue (s : MQState) (i : Nat) : List QueueHandle :=
  s.queues.getD i []

/-- Replace queues_[i]. -/
def setQueue (s : MQState) (i : Nat) (q : List QueueHandle) : MQState :=
  { s with queues := s.queues.set i q }

/-- SingleQueue::Queue_Append into queues_[i]: insert just after the MRU
sentinel. -/
def appendMRU (s : MQState) (i : Nat) (h : QueueHandle) : MQState :=
  setQueue s i (h :: getQueue s i)

/-- SingleQueue::Queue_Remove: unlink the node through its pointers.  The
node is unlinked from whatever list it physically sits in, so the embedded
removal erases its key from every queue. -/
def removeKey (s : MQState) (k : Nat) : MQState :=
  { s with queues := s.queues.map (List.eraseP (fun h => h.key == k)) }

/-- All user nodes of all queues. -/
def allNodes (s : MQState) : List QueueHandle :=
  s.queues.flatten

/-- Dereference a handle: the node carrying the key (the derived map_). -/
def findNode (s : MQState) (k : Nat) : Option QueueHandle :=
  (allNodes s).find? (fun h => h.key == k)

/-- Status of mq_schedule.h operations: only ok-ness is inspected. -/
inductive MQStatus where
  | ok
  | corruption
deriving DecidableEq, Repr

namespace SingleQueue

/-- The loop body of SingleQueue::FindColdFilter.  The traversal list is
the queue read from the LRU end toward the MRU end; memory is a uint64_t
decremented by OneUnitSize for every selected node, and the do-while
continues while memory > 0 after each step. -/
def findColdGo (sn : Nat) : List QueueHandle → Nat → List QueueHandle →
    Nat × List QueueHandle
  | [], memory, filters => (memory, filters)
  | e :: rest, memory, filters =>
    if e.reader.IsCold sn && e.reader.CanBeEvict then
      if 0 < sub64 memory e.reader.OneUnitSize then
        findColdGo sn rest (sub64 memory e.reader.OneUnitSize) (filters ++ [e])
      else
        (sub64 memory e.reader.OneUnitSize, filters ++ [e])
    else
      if 0 < memory then
        findColdGo sn rest memory filters
      else
        (memory, filters)

/-- SingleQueue::FindColdFilter: traverse from LRU to MRU collecting cold
evictable readers into filters, decrementing the shared memory budget. -/
def FindColdFilter (queue : List QueueHandle) (memory : Nat) (sn : Nat)
    (filters : List QueueHandle) : Nat × List QueueHandle :=
  findColdGo sn queue.reverse memory filters

end SingleQueue

namespace InternalMultiQueue

/-- The level loop of InternalMultiQueue::FindColdFilter: i runs from
filters_number down to 1 while memory > 0, threading memory and the
accumulated filters through SingleQueue::FindColdFilter. -/
def findColdLevels (s : MQState) (sn : Nat) :
    Nat → Nat → List QueueHandle → Nat × List QueueHandle
  | 0, memory, filters => (memory, filters)
  | i + 1, memory, filters =>
    if 0 < memory then
      findColdLevels s sn i
        (SingleQueue.FindColdFilter (getQueue s (i + 1)) memory sn filters).1
        (SingleQueue.FindColdFilter (getQueue s (i + 1)) memory sn filters).2
    else
      (memory, filters)

/-- InternalMultiQueue::FindColdFilter: collect cold victims covering the
memory budget; if budget remains the adjustment is cancelled by returning
the empty vector. -/
def FindColdFilter (s : MQState) (memory : Nat) (sn : Nat) : List QueueHandle :=
  let result := findColdLevels s sn filters_number memory []
  if 0 < result.1 then [] else result.2

/-- The first loop of InternalMultiQueue::CanBeAdjusted: sum IOs over the
cold handles, returning none as soon as a handle can no longer be evicted. -/
def originalColdIOs : List QueueHandle → Option ℚ
  | [] => some 0
  | h :: rest =>
    if h.reader.CanBeEvict then
      (originalColdIOs rest).map (fun x => h.reader.IOs + x)
    else
      none

/-- InternalMultiQueue::CanBeAdjusted: re-check evictability of every cold
victim, then compare the projected adjusted IOs against the original IOs;
only a strict improvement is accepted. -/
def CanBeAdjusted (colds : List QueueHandle) (hot : QueueHandle) : Bool :=
  match originalColdIOs colds with
  | none => false
  | some coldIOs =>
    let originalIOs := coldIOs + hot.reader.IOs
    let adjustedIOs := (colds.map (fun h => h.reader.EvictIOs)).sum + hot.reader.LoadIOs
    adjustedIOs < originalIOs

/-- InternalMultiQueue::LoadHandle: move the node one queue up, then load
one more unit into its reader.  The reader call is modelled from the spec
(LoadFilter of the missing filter_block.cc fails and leaves the resident
list unchanged both when all units are already resident and when the
backing-file read of the next unit fails, per the readOk oracle); note
the node has already been re-homed when the reader call fails. -/
def LoadHandle (s : MQState) (k : Nat) : MQStatus × MQState :=
  match findNode s k with
  | none => (MQStatus.corruption, s)
  | some h =>
    let number := h.reader.FilterUnitsNumber
    if number < filters_number then
      if number < h.reader.allUnitsNumber && h.reader.readOk then
        (MQStatus.ok,
          appendMRU (removeKey s k) (number + 1)
            { h with reader := h.reader.LoadFilterEffect })
      else
        (MQStatus.corruption, appendMRU (removeKey s k) (number + 1) h)
    else
      (MQStatus.corruption, s)

/-- InternalMultiQueue::EvictHandle: move the node one queue down, then
evict one unit from its reader (reader call modelled from the spec as in
LoadHandle). -/
def EvictHandle (s : MQState) (k : Nat) : MQStatus × MQState :=
  match findNode s k with
  | none => (MQStatus.corruption, s)
  | some h =>
    let number := h.reader.FilterUnitsNumber
    if 1 ≤ number then
      (MQStatus.ok,
        appendMRU (removeKey s k) (number - 1)
          { h with reader := h.reader.EvictFilterEffect })
    else
      (MQStatus.corruption, s)

/-- The loop of InternalMultiQueue::ApplyAdjustment: evict the cold
victims one by one, stopping at the first failure; after all evictions
load one unit into the hot handle.  Neither call touches usage_. -/
def applyAdjustmentLoop (hotKey : Nat) : List Nat → MQState → MQState
  | [], s => (LoadHandle s hotKey).2
  | c :: rest, s =>
    if (EvictHandle s c).1 = MQStatus.ok then
      applyAdjustmentLoop hotKey rest (EvictHandle s c).2
    else
      (EvictHandle s c).2

/-- InternalMultiQueue::ApplyAdjustment. -/
def ApplyAdjustment (s : MQState) (colds : List QueueHandle) (hot : QueueHandle) :
    MQState :=
  applyAdjustmentLoop hot.key (colds.map (fun h => h.key)) s

/-- The guard chain of InternalMultiQueue::Adjustment: the hot reader can
be loaded, the collected cold set is non-empty and CanBeAdjusted accepts. -/
def AdjustmentApplied (s : MQState) (hotKey : Nat) (sn : Nat) : Bool :=
  match findNode s hotKey with
  | none => false
  | some hot =>
    hot.reader.CanBeLoaded &&
      (let cold := FindColdFilter s hot.reader.OneUnitSize sn
       !cold.isEmpty && CanBeAdjusted cold hot)

/-- InternalMultiQueue::Adjustment. -/
def Adjustment (s : MQState) (hotKey : Nat) (sn : Nat) : MQState :=
  match findNode s hotKey with
  | none => s
  | some hot =>
    if hot.reader.CanBeLoaded then
      let cold := FindColdFilter s hot.reader.OneUnitSize sn
      if !cold.isEmpty && CanBeAdjusted cold hot then
        ApplyAdjustment s cold hot
      else
        s
    else
      s

/-- InternalMultiQueue::Insert (UpdateHandle revision): home the new node
in queues_[LoadFilterNumber] and charge LoadFilterNumber * OneUnitSize
bytes to usage_. -/
def Insert (s : MQState) (k : Nat) (reader : FilterReaderState) : MQState :=
  let number := reader.LoadFilterNumber
  let s1 := appendMRU s number { key := k, reader := reader }
  { s1 with usage := add64 s1.usage (mul64 reader.LoadFilterNumber reader.OneUnitSize) }

/-- InternalMultiQueue::UpdateHandle: move the node to the MRU end of the
queue selected by its current unit count, then, when the internal key
parses, try an adjustment at the parsed sequence number.  ParseInternalKey
is embedded as the already-parsed optional sequence number. -/
def UpdateHandle (s : MQState) (k : Nat) (parsedSn : Option Nat) : MQState :=
  match findNode s k with
  | none => s
  | some h =>
    let s1 := appendMRU (removeKey s k) h.reader.FilterUnitsNumber h
    match parsedSn with
    | some sn => Adjustment s1 k sn
    | none => s1

/-- The while loop of InternalMultiQueue::Release, with fuel equal to the
number of iterations the source loop performs. -/
def releaseLoop (k : Nat) : Nat → MQState → MQState
  | 0, s => s
  | fuel + 1, s =>
    match findNode s k with
    | none => s
    | some h =>
      if h.reader.CanBeEvict then
        let s1 := (EvictHandle s k).2
        releaseLoop k fuel { s1 with usage := sub64 s1.usage h.reader.OneUnitSize }
      else
        s

/-- InternalMultiQueue::Release (UpdateHandle revision): evict the
readers units one by one, decrementing usage_ per unit. -/
def Release (s : MQState) (k : Nat) : MQState :=
  match findNode s k with
  | none => s
  | some h => releaseLoop k h.reader.FilterUnitsNumber s

/-- InternalMultiQueue::GoBackToInitFilter: re-home the node from the
queue of its current unit count to the queue of its initial unit count,
drive the reader back to the initial units (reader call modelled from the
spec: the missing GoBackToInitFilter reloads exactly the initial units),
and adjust usage_ by the size_t difference. -/
def GoBackToInitFilter (s : MQState) (k : Nat) : MQState :=
  match findNode s k with
  | none => s
  | some h =>
    let filterNumber := h.reader.FilterUnitsNumber
    let initNumber := h.reader.LoadFilterNumber
    let h2 := { h with reader := { h.reader with filterUnits := initNumber } }
    let s1 := appendMRU (removeKey s k) initNumber h2
    { s1 with
      usage := add64 s1.usage (mul64 (sub64 initNumber filterNumber) h.reader.OneUnitSize) }

/-- InternalMultiQueue::Erase: when the key is indexed, uncharge the
reader size from usage_ and unlink and free the node. -/
def Erase (s : MQState) (k : Nat) : MQState :=
  match findNode s k with
  | none => s
  | some h => { removeKey s k with usage := sub64 s.usage h.reader.Size }

/-- InternalMultiQueue::TotalCharge. -/
def TotalCharge (s : MQState) : Nat := s.usage

end InternalMultiQueue

namespace InternalMultiQueue2

/-- InternalMultiQueue::Value (KeyMayMatch revision): null handles give a
null reader.  A handle is embedded as an optional key. -/
def Value (s : MQState) (handle : Option Nat) : Option FilterReaderState :=
  match handle with
  | none => none
  | some k => (findNode s k).map (fun h => h.reader)

/-- InternalMultiQueue::Lookup (KeyMayMatch revision): a key absent from
the index gives the null handle. -/
def Lookup (s : MQState) (k : Nat) : Option Nat :=
  match findNode s k with
  | none => none
  | some _ => some k

/-- InternalMultiQueue::LoadHandle (KeyMayMatch revision): the guard is
number + 1 <= filters_number in size_t arithmetic; the reader call fails
per the spec both at the unit bound and on a failing backing read
(readOk), leaving the resident list unchanged on the re-homed node. -/
def LoadHandle (s : MQState) (k : Nat) : MQStatus × MQState :=
  match findNode s k with
  | none => (MQStatus.corruption, s)
  | some h =>
    let number := h.reader.FilterUnitsNumber
    if add64 number 1 ≤ filters_number then
      if number < h.reader.allUnitsNumber && h.reader.readOk then
        (MQStatus.ok,
          appendMRU (removeKey s k) (number + 1)
            { h with reader := h.reader.LoadFilterEffect })
      else
        (MQStatus.corruption, appendMRU (removeKey s k) (number + 1) h)
    else
      (MQStatus.corruption, s)

/-- InternalMultiQueue::EvictHandle (KeyMayMatch revision): the guard
number - 1 >= 0 is computed in size_t, hence always true; at number = 0
the node is appended to queues_[number - 1], an out-of-range index whose
write the embedding drops, and the reader call fails leaving the count
unchanged. -/
def EvictHandle (s : MQState) (k : Nat) : MQStatus × MQState :=
  match findNode s k with
  | none => (MQStatus.corruption, s)
  | some h =>
    let number := h.reader.FilterUnitsNumber
    let h2 :=
      if 1 ≤ number then { h with reader := h.reader.EvictFilterEffect } else h
    let status := if 1 ≤ number then MQStatus.ok else MQStatus.corruption
    (status, appendMRU (removeKey s k) (sub64 number 1) h2)

/-- InternalMultiQueue::ApplyAdjustment (KeyMayMatch revision): statuses
of the evictions and of the load are ignored. -/
def applyAdjustmentLoop (hotKey : Nat) : List Nat → MQState → MQState
  | [], s => (LoadHandle s hotKey).2
  | c :: rest, s => applyAdjustmentLoop hotKey rest (EvictHandle s c).2

/-- InternalMultiQueue::ApplyAdjustment (KeyMayMatch revision). -/
def ApplyAdjustment (s : MQState) (colds : List QueueHandle) (hot : QueueHandle) :
    MQState :=
  applyAdjustmentLoop hot.key (colds.map (fun h => h.key)) s

/-- InternalMultiQueue::Adjustment (KeyMayMatch revision); the victim
collection and the benefit check are textually those of the UpdateHandle
revision. -/
def Adjustment (s : MQState) (hotKey : Nat) (sn : Nat) : MQState :=
  match findNode s hotKey with
  | none => s
  | some hot =>
    if hot.reader.CanBeLoaded then
      let cold := InternalMultiQueue.FindColdFilter s hot.reader.OneUnitSize sn
      if !cold.isEmpty && InternalMultiQueue.CanBeAdjusted cold hot then
        ApplyAdjustment s cold hot
      else
        s
    else
      s

/-- InternalMultiQueue::KeyMayMatch: the fast path of a point lookup.  A
null handle gives a null reader, hence a null queue from FindQueue, and
the conservative result true without touching any queue.  For a live
handle the node moves to MRU, an adjustment is tried when the internal
key parses, and the reader answers; the reader query of the missing
filter_block.cc is abstracted as the function argument readerKMM applied
to the post-adjustment reader. -/
def KeyMayMatch (s : MQState) (handle : Option Nat) (blockOffset : Nat)
    (parsedSn : Option Nat) (readerKMM : FilterReaderState → Nat → Bool) :
    Bool × MQState :=
  match handle with
  | none => (true, s)
  | some k =>
    match findNode s k with
    | none => (true, s)
    | some h =>
      let s1 := appendMRU (removeKey s k) h.reader.FilterUnitsNumber h
      let s2 :=
        match parsedSn with
        | some sn => Adjustment s1 k sn
        | none => s1
      (readerKMM (((findNode s2 k).getD h).reader) blockOffset, s2)

/-- InternalMultiQueue::Erase (KeyMayMatch revision). -/
def Erase (s : MQState) (k : Nat) : MQState :=
  match findNode s k with
  | none => s
  | some h => { removeKey s k with usage := sub64 s.usage h.reader.Size }

end InternalMultiQueue2

/-- Status results of the reader paging operations. -/
inductive RStatus where
  | ok
  | invalidStateAlreadyFull
  | invalidStateAlreadyEmpty
  | corruption
deriving DecidableEq, Repr

/-- Modelled from the spec: the paging state of FilterBlockReader of the
missing filter_block.cc.  resident holds the indices of the currently
loaded units (always the prefix of the unit sequence), allUnitsNumber the
number of units that exist on disk, and readOk tells whether the backing
file read of a given unit succeeds. -/
structure FilterBlockReaderS where
  resident : List Nat
  allUnitsNumber : Nat
  readOk : Nat → Bool

namespace FilterBlockReaderS

/-- FilterBlockReader::FilterUnitsNumber of the paging model. -/
def FilterUnitsNumber (r : FilterBlockReaderS) : Nat := r.resident.length

/-- Modelled from the spec: LoadFilter of the missing filter_block.cc.
When all units are resident it fails with the InvalidState AlreadyFull
error; a failing file read gives a corruption error; any failure leaves
the resident list unchanged; success appends one unit at the high end. -/
def LoadFilter (r : FilterBlockReaderS) : RStatus × FilterBlockReaderS :=
  if r.resident.length < r.allUnitsNumber then
    if r.readOk r.resident.length then
      (RStatus.ok, { r with resident := r.resident ++ [r.resident.length] })
    else
      (RStatus.corruption, r)
  else
    (RStatus.invalidStateAlreadyFull, r)

/-- Modelled from the spec: EvictFilter of the missing filter_block.cc.
With no resident unit it fails with the InvalidState AlreadyEmpty error
and leaves the resident list unchanged; otherwise it removes the unit at
the high end. -/
def EvictFilter (r : FilterBlockReaderS) : RStatus × FilterBlockReaderS :=
  if r.resident.isEmpty then
    (RStatus.invalidStateAlreadyEmpty, r)
  else
    (RStatus.ok, { r with resident := r.resident.dropLast })

end FilterBlockReaderS

/-- Modelled from the spec: a freshly built reader, with the initial units
resident. -/
def freshReaderS (initUnits allUnits : Nat) (readOk : Nat → Bool) :
    FilterBlockReaderS :=
  { resident := List.range initUnits, allUnitsNumber := allUnits, readOk := readOk }

/-- The FilterPolicy collaborator interface: CreateFilter builds the
bitmap of a key set for a unit index, KeyMayMatch probes a key against a
bitmap for a unit index.  Keys and bytes are abstracted as Nat. -/
structure FilterPolicyM where
  createFilter : List Nat → Nat → List Nat
  keyMayMatch : Nat → List Nat → Nat → Bool

/-- Modelled from the spec: the accumulator state of FilterBlockBuilder of
the missing filter_block.cc: the buffered keys, the per-block offset array
shared by all units, and the per-unit bitmap accumulators. -/
structure FilterBlockBuilderB where
  keys : List Nat
  filterOffsets : List Nat
  filterUnits : List (List Nat)
deriving DecidableEq, Repr

/-- Modelled from the spec: a fresh builder with allUnits empty unit
accumulators. -/
def emptyBuilder (allUnits : Nat) : FilterBlockBuilderB :=
  { keys := [], filterOffsets := [], filterUnits := List.replicate allUnits [] }

/-- Modelled from the spec: GenerateFilter of the missing filter_block.cc.
The current length of unit 0 is recorded into the offset array; when keys
are buffered, the policy builds one bitmap per unit index from them,
each appended to its unit accumulator, and the key buffer is cleared. -/
def GenerateFilter (pol : FilterPolicyM) (b : FilterBlockBuilderB) :
    FilterBlockBuilderB :=
  if b.keys.isEmpty then
    { b with filterOffsets := b.filterOffsets ++ [(b.filterUnits.headD []).length] }
  else
    { keys := [],
      filterOffsets := b.filterOffsets ++ [(b.filterUnits.headD []).length],
      filterUnits := b.filterUnits.mapIdx (fun j u => u ++ pol.createFilter b.keys j) }

/-- Modelled from the spec: StartBlock of the missing filter_block.cc runs
one filter generation per offset-array index from the last generated index
up to block_offset >> base_lg. -/
def StartBlock (pol : FilterPolicyM) (baseLg : Nat) (b : FilterBlockBuilderB)
    (blockOffset : Nat) : FilterBlockBuilderB :=
  (GenerateFilter pol)^[blockOffset / 2 ^ baseLg - b.filterOffsets.length] b

/-- Modelled from the spec: AddKey of the missing filter_block.cc buffers
the key. -/
def AddKey (b : FilterBlockBuilderB) (k : Nat) : FilterBlockBuilderB :=
  { b with keys := b.keys ++ [k] }

/-- One step of the builder protocol. -/
inductive BuildStep where
  | startBlock (blockOffset : Nat)
  | addKey (key : Nat)
deriving DecidableEq, Repr

/-- Run a sequence of builder protocol steps. -/
def runSteps (pol : FilterPolicyM) (baseLg : Nat) (b : FilterBlockBuilderB)
    (steps : List BuildStep) : FilterBlockBuilderB :=
  steps.foldl
    (fun b step =>
      match step with
      | BuildStep.startBlock o => StartBlock pol baseLg b o
      | BuildStep.addKey k => AddKey b k)
    b

/-- Modelled from the spec: the state part of Finish of the missing
filter_block.cc: a final generation flushes any buffered keys. -/
def FinishState (pol : FilterPolicyM) (b : FilterBlockBuilderB) :
    FilterBlockBuilderB :=
  if b.keys.isEmpty then b else GenerateFilter pol b

/-- PutFixed32 of util/coding: four little-endian bytes. -/
def putFixed32 (v : Nat) : List Nat :=
  [v % 256, v / 256 % 256, v / 65536 % 256, v / 16777216 % 256]

/-- Modelled from the spec: the byte emission of Finish of the missing
filter_block.cc, in the field order pinned by the byte literals of
src/table/filter_block_test.cc: the offset array, the disk offset of unit
0 packed as two little-endian 32-bit halves, then unit_size, init_units
and all_units as little-endian 32-bit scalars, then the final byte
base_lg.  diskOffset and diskSize come back from the persister as the
block handle. -/
def Finish (pol : FilterPolicyM) (b : FilterBlockBuilderB)
    (diskOffset diskSize initUnits allUnits baseLg : Nat) : List Nat :=
  let b2 := FinishState pol b
  (b2.filterOffsets.map putFixed32).flatten
    ++ putFixed32 (diskOffset % 4294967296)
    ++ putFixed32 (diskOffset / 4294967296 % 4294967296)
    ++ putFixed32 diskSize
    ++ putFixed32 initUnits
    ++ putFixed32 allUnits
    ++ [baseLg % 256]

/-- The byte emission of Finish in the field order asserted by the
specification text (unit_size, all_units, init_units, then the disk
offset halves, then base_lg), written down to be compared against the
byte literals pinned by the tests. -/
def FinishSpecOrder (pol : FilterPolicyM) (b : FilterBlockBuilderB)
    (diskOffset diskSize initUnits allUnits baseLg : Nat) : List Nat :=
  let b2 := FinishState pol b
  (b2.filterOffsets.map putFixed32).flatten
    ++ putFixed32 diskSize
    ++ putFixed32 allUnits
    ++ putFixed32 initUnits
    ++ putFixed32 (diskOffset % 4294967296)
    ++ putFixed32 (diskOffset / 4294967296 % 4294967296)
    ++ [baseLg % 256]

/-- Modelled from the spec: the match state of FilterBlockReader of the
missing filter_block.cc: the parsed offset array, the shared unit size,
the unit count on disk, the backing file bytes holding the units
contiguously from the disk offset (normalized to zero), and the resident
unit count (resident units are always the prefix of the unit sequence). -/
structure FilterBlockReaderB where
  offsets : List Nat
  diskSize : Nat
  allUnitsNumber : Nat
  fileData : List Nat
  filterUnitsNumber : Nat
deriving DecidableEq, Repr

/-- Unit j as recovered from the backing file. -/
def residentUnit (r : FilterBlockReaderB) (j : Nat) : List Nat :=
  (r.fileData.drop (j * r.diskSize)).take r.diskSize

/-- Modelled from the spec: KeyMayMatch of the missing filter_block.cc.
The data block offset maps to an offset-array index through base_lg; an
out-of-range index answers the conservative true; an empty filter region
answers false; otherwise every resident unit is probed with its unit
index and any single unit can rule the key out. -/
def KeyMayMatchB (pol : FilterPolicyM) (baseLg : Nat) (r : FilterBlockReaderB)
    (blockOffset key : Nat) : Bool :=
  let i := blockOffset / 2 ^ baseLg
  if r.offsets.length ≤ i then true
  else
    let start := r.offsets.getD i 0
    let limit := if i + 1 = r.offsets.length then r.diskSize else r.offsets.getD (i + 1) 0
    if start = limit then false
    else
      (List.range r.filterUnitsNumber).all
        (fun j => pol.keyMayMatch key (((residentUnit r j).drop start).take (limit - start)) j)

/-- The reader built from a finished builder, with the initial units
resident and the backing file holding the emitted units contiguously. -/
def readerFromBuilder (pol : FilterPolicyM) (baseLg initUnits allUnits : Nat)
    (steps : List BuildStep) : FilterBlockReaderB :=
  let b := FinishState pol (runSteps pol baseLg (emptyBuilder allUnits) steps)
  { offsets := b.filterOffsets
    diskSize := (b.filterUnits.headD []).length
    allUnitsNumber := allUnits
    fileData := b.filterUnits.flatten
    filterUnitsNumber := initUnits }

/-- A load or evict request against the match-state reader. -/
inductive FilterROp where
  | load
  | evict
deriving DecidableEq, Repr

/-- Modelled from the spec: the effect of one load or evict request on the
resident count; requests the bounds forbid fail and leave the reader
unchanged. -/
def applyFilterOp (r : FilterBlockReaderB) : FilterROp → FilterBlockReaderB
  | FilterROp.load =>
    if r.filterUnitsNumber < r.allUnitsNumber then
      { r with filterUnitsNumber := r.filterUnitsNumber + 1 }
    else r
  | FilterROp.evict =>
    if r.filterUnitsNumber = 0 then r
    else { r with filterUnitsNumber := r.filterUnitsNumber - 1 }

/-- A sequence of load and evict requests. -/
def applyFilterOps (r : FilterBlockReaderB) (ops : List FilterROp) :
    FilterBlockReaderB :=
  ops.foldl applyFilterOp r

/-- The exact resident bytes of one node: unit count times unit size. -/
def nodeBytes (h : QueueHandle) : Nat :=
  h.reader.filterUnits * h.reader.diskSize

/-- The exact resident bytes of all user nodes. -/
def sumBytes (s : MQState) : Nat :=
  ((allNodes s).map nodeBytes).sum

/-- The homing invariant: every node of queues_[i] has exactly i resident
units. -/
def Homing (s : MQState) : Prop :=
  ∀ i < s.queues.length, ∀ h ∈ getQueue s i, h.reader.FilterUnitsNumber = i

/-- No two user nodes share a cache key (the index has no stale entries). -/
def KeysNodup (s : MQState) : Prop :=
  ((allNodes s).map QueueHandle.key).Nodup

/-- Per-reader bounds: the resident count never exceeds the units on disk,
which never exceed the queue range, and the initial units fit on disk. -/
def BoundsOK (s : MQState) : Prop :=
  ∀ h ∈ allNodes s,
    h.reader.filterUnits ≤ h.reader.allUnitsNumber ∧
    h.reader.allUnitsNumber ≤ filters_number ∧
    h.reader.initUnitsNumber ≤ h.reader.allUnitsNumber

/-- The structural well-formedness of the MultiQueue at a lock boundary. -/
def WF (s : MQState) : Prop :=
  s.queues.length = filters_number + 1 ∧ Homing s ∧ KeysNodup s ∧ BoundsOK s

/-- The usage accounting invariant: usage_ equals the resident bytes of
all user nodes, reduced by the size_t modulus. -/
def UsageOK (s : MQState) : Prop :=
  s.usage = sumBytes s % kWordMod

instance (s : MQState) : Decidable (Homing s) := by
  unfold Homing
  infer_instance

instance (s : MQState) : Decidable (KeysNodup s) := by
  unfold KeysNodup
  infer_instance

instance (s : MQState) : Decidable (BoundsOK s) := by
  unfold BoundsOK
  infer_instance

instance (s : MQState) : Decidable (WF s) := by
  unfold WF
  infer_instance

instance (s : MQState) : Decidable (UsageOK s) := by
  unfold UsageOK
  infer_instance

/-- The byte budget covered by a cold victim set. -/
def sumUnitSizes (colds : List QueueHandle) : Nat :=
  (colds.map (fun h => h.reader.OneUnitSize)).sum

/-- The projected original IOs of an adjustment: the IOs of the victims
plus the IOs of the hot reader. -/
def originalIOs (colds : List QueueHandle) (hot : QueueHandle) : ℚ :=
  (colds.map (fun h => h.reader.IOs)).sum + hot.reader.IOs

/-- The projected adjusted IOs of an adjustment: the post-eviction IOs of
the victims plus the post-load IOs of the hot reader. -/
def adjustedIOs (colds : List QueueHandle) (hot : QueueHandle) : ℚ :=
  (colds.map (fun h => h.reader.EvictIOs)).sum + hot.reader.LoadIOs

/-- The bitmap a generation appends for a key group: nothing when the
group is empty (GenerateFilter returns early), the policy bitmap
otherwise. -/
def cfB (pol : FilterPolicyM) (g : List Nat) (j : Nat) : List Nat :=
  if g.isEmpty then [] else pol.createFilter g j

/-- The offset array determined by a sequence of key groups: the running
total of the unit-0 bitmap lengths. -/
def offsetsAux (pol : FilterPolicyM) : List (List Nat) → Nat → List Nat
  | [], _ => []
  | g :: gs, acc => acc :: offsetsAux pol gs (acc + (cfB pol g 0).length)

/-- The per-unit accumulators determined by a sequence of key groups. -/
def unitsOfGroups (pol : FilterPolicyM) (n : Nat) (groups : List (List Nat)) :
    List (List Nat) :=
  (List.range n).map (fun j => (groups.map (fun g => cfB pol g j)).flatten)

/-- The group-level view of the builder: the generated key groups and the
current key buffer. -/
def gGenerate (gb : List (List Nat) × List Nat) : List (List Nat) × List Nat :=
  (gb.1 ++ [gb.2], [])

/-- The group-level view of StartBlock. -/
def gStartBlock (baseLg : Nat) (gb : List (List Nat) × List Nat)
    (blockOffset : Nat) : List (List Nat) × List Nat :=
  gGenerate^[blockOffset / 2 ^ baseLg - gb.1.length] gb

/-- The group-level view of AddKey. -/
def gAddKey (gb : List (List Nat) × List Nat) (k : Nat) :
    List (List Nat) × List Nat :=
  (gb.1, gb.2 ++ [k])

/-- The group-level view of a run of builder protocol steps. -/
def gRun (baseLg : Nat) (gb : List (List Nat) × List Nat)
    (steps : List BuildStep) : List (List Nat) × List Nat :=
  steps.foldl
    (fun gb step =>
      match step with
      | BuildStep.startBlock o => gStartBlock baseLg gb o
      | BuildStep.addKey k => gAddKey gb k)
    gb

/-- The group-level view of the final generation of Finish. -/
def gFinish (gb : List (List Nat) × List Nat) : List (List Nat) × List Nat :=
  if gb.2.isEmpty then gb else gGenerate gb

/-- Whether a builder step opens a data block. -/
def isStartBlock : BuildStep → Bool
  | BuildStep.startBlock _ => true
  | BuildStep.addKey _ => false

/-- The offset-array index a StartBlock step targets. -/
def stepIndex (baseLg : Nat) : BuildStep → Option Nat
  | BuildStep.startBlock o => some (o / 2 ^ baseLg)
  | BuildStep.addKey _ => none

/-- The number of filter bytes a sequence of key groups contributes to one
unit, measured on unit 0. -/
def groupBytes (pol : FilterPolicyM) (gs : List (List Nat)) : Nat :=
  (gs.map (fun g => (cfB pol g 0).length)).sum

/-- The simulation invariant between the byte-level builder and its
group-level view: the key buffer, the offset array and the per-unit
accumulators are all determined by the generated key groups. -/
def Represents (pol : FilterPolicyM) (n : Nat) (b : FilterBlockBuilderB)
    (gb : List (List Nat) × List Nat) : Prop :=
  b.keys = gb.2 ∧ b.filterOffsets = offsetsAux pol gb.1 0 ∧
  b.filterUnits = unitsOfGroups pol n gb.1

/-- Key k is recorded for offset-array index i: either already flushed
into group i, or still buffered while exactly i groups were generated. -/
def keyPlaced (i k : Nat) (gb : List (List Nat) × List Nat) : Prop :=
  (i < gb.1.length ∧ k ∈ gb.1.getD i []) ∨ (gb.1.length = i ∧ k ∈ gb.2)

/-! Concrete fixtures used to evaluate the embedded operations. -/

/-- A cold reader holding two resident units of 20 bytes. -/
def victimNode : QueueHandle :=
  { key := 2,
    reader := { filterUnits := 2, initUnitsNumber := 1, allUnitsNumber := 4,
                diskSize := 20, accessTime := 10, sequence := 0, fpr := mkRat 1 10, readOk := true } }

/-- A hot reader holding one resident unit of 20 bytes, last touched at
sequence 20000. -/
def hotNode : QueueHandle :=
  { key := 1,
    reader := { filterUnits := 1, initUnitsNumber := 1, allUnitsNumber := 4,
                diskSize := 20, accessTime := 1000, sequence := 20000, fpr := mkRat 1 10, readOk := true } }

/-- A MultiQueue holding the hot reader in queues_[1] and the cold victim
in queues_[2], with usage_ equal to the resident bytes. -/
def adjState : MQState :=
  { queues := [[], [hotNode], [victimNode], [], [], [], []], usage := 60 }

/-- A cold evictable reader whose unit is larger than the 2-byte budget of
the overshoot scenario. -/
def overshootNode : QueueHandle :=
  { key := 7,
    reader := { filterUnits := 1, initUnitsNumber := 1, allUnitsNumber := 4,
                diskSize := 3, accessTime := 1, sequence := 0, fpr := mkRat 1 10, readOk := true } }

/-- A MultiQueue holding only the overshoot victim in queues_[1]. -/
def overshootState : MQState :=
  { queues := [[], [overshootNode], [], [], [], [], []], usage := 3 }

/-- A reader probed by the hotness scenario. -/
def probeReader : FilterReaderState :=
  { filterUnits := 1, initUnitsNumber := 1, allUnitsNumber := 4,
    diskSize := 20, accessTime := 0, sequence := 0, fpr := mkRat 1 10, readOk := true }

/-- A freshly built reader, as inserted by the invariant scenarios. -/
def insertReader : FilterReaderState :=
  { filterUnits := 1, initUnitsNumber := 1, allUnitsNumber := 4,
    diskSize := 20, accessTime := 0, sequence := 0, fpr := mkRat 1 10, readOk := true }

/-- The hot reader of the adjustment scenario, with the backing-file read
of its next unit failing. -/
def hotNodeBadRead : QueueHandle :=
  { key := 1,
    reader := { filterUnits := 1, initUnitsNumber := 1, allUnitsNumber := 4,
                diskSize := 20, accessTime := 1000, sequence := 20000,
                fpr := mkRat 1 10, readOk := false } }

/-- The adjustment MultiQueue with the hot reader backed by a failing
file read. -/
def badLoadState : MQState :=
  { queues := [[], [hotNodeBadRead], [victimNode], [], [], [], []], usage := 60 }

/-- A concrete filter policy with no false negatives: the bitmap of a key
set is the key set itself and a probe is a membership test. -/
def unitPolicy : FilterPolicyM :=
  { createFilter := fun ks _ => ks, keyMayMatch := fun k bm _ => bm.contains k }

/-- The builder protocol of the SingleChunk test, with keys abstracted as
numbers: blocks at offsets 100, 200 and 300 all map to offset-array
index 0. -/
def singleChunkSteps : List BuildStep :=
  [BuildStep.startBlock 100, BuildStep.addKey 1, BuildStep.addKey 2,
   BuildStep.addKey 3, BuildStep.startBlock 200, BuildStep.addKey 3,
   BuildStep.startBlock 300, BuildStep.addKey 4]

/-! Theorems. -/

/-- C4: evaluation of the cold-victim collection at the failing input.
The only node of the MultiQueue is cold at sequence 20000 and evictable,
and its 3-byte unit covers the 2-byte budget, yet the collection returns
the empty victim set (the adjustment is cancelled): subtracting 3 from
the uint64_t budget 2 wraps to 2 ^ 64 - 1 instead of stopping the
traversal at a non-positive budget, contradicting the in-source comment
that evicting more cold memory than the loaded unit is acceptable. -/
theorem findColdFilter_overshoot_cancels :
    InternalMultiQueue.FindColdFilter overshootState 2 20000 = [] ∧
    overshootNode.reader.IsCold 20000 = true ∧
    overshootNode.reader.CanBeEvict = true ∧
    2 ≤ overshootNode.reader.OneUnitSize ∧
    (SingleQueue.FindColdFilter [overshootNode] 2 20000 []).1 = kWordMod - 1 := by
  decide

/-- C6: load_filter fails with the InvalidState AlreadyFull error exactly
when the resident count equals all_units, evict_filter fails with the
InvalidState AlreadyEmpty error exactly when the resident count is zero,
and any failure of either operation leaves the resident list unchanged. -/
theorem loadFilter_evictFilter_failure_semantics (r : FilterBlockReaderS)
    (hbound : r.FilterUnitsNumber ≤ r.allUnitsNumber) :
    ((r.LoadFilter.1 = RStatus.invalidStateAlreadyFull) ↔
      r.FilterUnitsNumber = r.allUnitsNumber) ∧
    ((r.EvictFilter.1 = RStatus.invalidStateAlreadyEmpty) ↔
      r.FilterUnitsNumber = 0) ∧
    (r.LoadFilter.1 ≠ RStatus.ok → r.LoadFilter.2 = r) ∧
    (r.EvictFilter.1 ≠ RStatus.ok → r.EvictFilter.2 = r) := by
  unfold FilterBlockReaderS.FilterUnitsNumber at *
  refine ⟨?_, ?_, ?_, ?_⟩
  · unfold FilterBlockReaderS.LoadFilter
    split_ifs with h1 h2 <;> simp <;> omega
  · unfold FilterBlockReaderS.EvictFilter
    split_ifs with h1 <;>
      simp_all [List.isEmpty_iff, List.length_eq_zero]
  · unfold FilterBlockReaderS.LoadFilter
    split_ifs with h1 h2 <;> simp
  · unfold FilterBlockReaderS.EvictFilter
    split_ifs with h1 <;> simp

/-- Witness for the failure semantics: a fully loaded reader fails a load
with AlreadyFull and succeeds an evict. -/
theorem loadFilter_evictFilter_failure_semantics_witness :
    (((freshReaderS 4 4 (fun _ => true)).LoadFilter.1 =
        RStatus.invalidStateAlreadyFull) ↔
      (freshReaderS 4 4 (fun _ => true)).FilterUnitsNumber =
        (freshReaderS 4 4 (fun _ => true)).allUnitsNumber) ∧
    (((freshReaderS 4 4 (fun _ => true)).EvictFilter.1 =
        RStatus.invalidStateAlreadyEmpty) ↔
      (freshReaderS 4 4 (fun _ => true)).FilterUnitsNumber = 0) ∧
    ((freshReaderS 4 4 (fun _ => true)).LoadFilter.1 ≠ RStatus.ok →
      (freshReaderS 4 4 (fun _ => true)).LoadFilter.2 =
        freshReaderS 4 4 (fun _ => true)) ∧
    ((freshReaderS 4 4 (fun _ => true)).EvictFilter.1 ≠ RStatus.ok →
      (freshReaderS 4 4 (fun _ => true)).EvictFilter.2 =
        freshReaderS 4 4 (fun _ => true)) :=
  loadFilter_evictFilter_failure_semantics (freshReaderS 4 4 (fun _ => true))
    (by decide)

/-- C7: the claim is refuted on the reader model: with init_units = 1 and
all_units = 5, after one evict and four loads the resident count is 4 and
the fifth load still succeeds (4 < 5), where the claim asserts it fails. -/
theorem lifecycle_all_units_five_counterexample :
    (freshReaderS 1 5 (fun _ => true)).EvictFilter.2.LoadFilter.2.LoadFilter.2.LoadFilter.2.LoadFilter.2.LoadFilter.1 =
      RStatus.ok := by
  decide

/-- C7 (amended: all_units = 4, the bound the LoadAndExcit test and the
emitted header byte pin): a freshly built reader with init_units = 1 has
one resident unit; one evict brings it to 0; a second evict fails; four
successive loads give counts 1, 2, 3, 4; a fifth load fails. -/
theorem lifecycle_load_evict :
    (freshReaderS 1 4 (fun _ => true)).FilterUnitsNumber = 1 ∧
    (freshReaderS 1 4 (fun _ => true)).EvictFilter.1 = RStatus.ok ∧
    (freshReaderS 1 4 (fun _ => true)).EvictFilter.2.FilterUnitsNumber = 0 ∧
    (freshReaderS 1 4 (fun _ => true)).EvictFilter.2.EvictFilter.1 =
      RStatus.invalidStateAlreadyEmpty ∧
    (freshReaderS 1 4 (fun _ => true)).EvictFilter.2.LoadFilter.2.FilterUnitsNumber = 1 ∧
    (freshReaderS 1 4 (fun _ => true)).EvictFilter.2.LoadFilter.2.LoadFilter.2.FilterUnitsNumber = 2 ∧
    (freshReaderS 1 4 (fun _ => true)).EvictFilter.2.LoadFilter.2.LoadFilter.2.LoadFilter.2.FilterUnitsNumber = 3 ∧
    (freshReaderS 1 4 (fun _ => true)).EvictFilter.2.LoadFilter.2.LoadFilter.2.LoadFilter.2.LoadFilter.2.FilterUnitsNumber = 4 ∧
    (freshReaderS 1 4 (fun _ => true)).EvictFilter.2.LoadFilter.2.LoadFilter.2.LoadFilter.2.LoadFilter.2.LoadFilter.1 =
      RStatus.invalidStateAlreadyFull := by
  decide

/-- C8: the scenario numbers of the claim are refuted on the source
IsCold: after a probe at sequence 1 the reader tracks sequence 1, and
with kLifeTime = 10000 the reader is already cold at sequence
1 + 30000 - 1, where the claim asserts it is not. -/
theorem is_cold_scenario_counterexample :
    ¬ ((probeReader.UpdateState 1).IsCold (1 + 30000 - 1) = false) := by
  decide

/-- C8 (amended: the scenario boundary is the kLifeTime constant 10000 of
the source, not 30000): is_cold is exactly the comparison
now >= sequence + kLifeTime (uint64_t addition, here overflow-free), a
probe at sn sets access_time to sn, and the probed reader turns cold
exactly at sn + kLifeTime. -/
theorem is_cold_boundary (r : FilterReaderState) (now sn : Nat)
    (hov : r.sequence + kLifeTime < kWordMod) (hsn : sn + kLifeTime < kWordMod) :
    (r.IsCold now = true ↔ r.sequence + kLifeTime ≤ now) ∧
    (r.UpdateState sn).accessTime = sn ∧
    (r.UpdateState sn).IsCold (sn + kLifeTime - 1) = false ∧
    (r.UpdateState sn).IsCold (sn + kLifeTime) = true := by
  have hk : kLifeTime = 10000 := rfl
  refine ⟨?_, rfl, ?_, ?_⟩
  · constructor
    · intro hdec
      have hle := of_decide_eq_true hdec
      rwa [Nat.mod_eq_of_lt hov] at hle
    · intro hle
      apply decide_eq_true
      rw [Nat.mod_eq_of_lt hov]
      exact hle
  · show decide ((sn + kLifeTime) % kWordMod ≤ sn + kLifeTime - 1) = false
    apply decide_eq_false
    intro hcon
    rw [Nat.mod_eq_of_lt hsn] at hcon
    omega
  · show decide ((sn + kLifeTime) % kWordMod ≤ sn + kLifeTime) = true
    apply decide_eq_true
    rw [Nat.mod_eq_of_lt hsn]

/-- Witness for the coldness boundary at a probe at sequence 7. -/
theorem is_cold_boundary_witness :
    (probeReader.IsCold 10000 = true ↔ probeReader.sequence + kLifeTime ≤ 10000) ∧
    (probeReader.UpdateState 7).accessTime = 7 ∧
    (probeReader.UpdateState 7).IsCold (7 + kLifeTime - 1) = false ∧
    (probeReader.UpdateState 7).IsCold (7 + kLifeTime) = true :=
  is_cold_boundary probeReader 10000 7 (by decide) (by decide)

/-- C9: the field order asserted by the claim (unit_size, all_units,
init_units, then the disk-offset halves, then base_lg) is refuted: for
the empty builder, whose persisted handle is offset 0 and size 0 and
whose constants the other scenarios pin as init_units = 1, all_units = 4
and base_lg = 11, emission in that order does not produce the 21 bytes
the claim itself (and the EmptyBuilder test) pins. -/
theorem finish_spec_order_counterexample :
    FinishSpecOrder unitPolicy (emptyBuilder 4) 0 0 1 4 11 ≠
      [0, 0, 0, 0, 0, 0, 0, 0, 0, 0, 0, 0, 1, 0, 0, 0, 4, 0, 0, 0, 11] := by
  decide

/-- C9 (amended: the tail field order is disk_offset packed as two
little-endian 32-bit halves, then unit_size, then init_units, then
all_units, then the final byte base_lg): the empty builder emits exactly
the 21 pinned bytes, every finished block ends in the 21-byte tail with
the disk_offset and unit_size fields updated, and the SingleChunk-shaped
builder emits its offset array followed by the same pattern. -/
theorem finish_header_layout :
    (∀ pol : FilterPolicyM,
      Finish pol (emptyBuilder 4) 0 0 1 4 11 =
        [0, 0, 0, 0, 0, 0, 0, 0, 0, 0, 0, 0, 1, 0, 0, 0, 4, 0, 0, 0, 11]) ∧
    (∀ (pol : FilterPolicyM) (b : FilterBlockBuilderB) (diskOffset diskSize : Nat),
      (Finish pol b diskOffset diskSize 1 4 11).drop
          ((Finish pol b diskOffset diskSize 1 4 11).length - 21) =
        putFixed32 (diskOffset % 4294967296) ++
          putFixed32 (diskOffset / 4294967296 % 4294967296) ++
          putFixed32 diskSize ++ [1, 0, 0, 0] ++ [4, 0, 0, 0] ++ [11]) ∧
    Finish unitPolicy (runSteps unitPolicy 11 (emptyBuilder 4) singleChunkSteps)
        0 5 1 4 11 =
      [0, 0, 0, 0] ++ [0, 0, 0, 0, 0, 0, 0, 0] ++ [5, 0, 0, 0] ++
        [1, 0, 0, 0] ++ [4, 0, 0, 0] ++ [11] := by
  refine ⟨fun pol => rfl, ?_, by decide⟩
  intro pol b diskOffset diskSize
  unfold Finish
  simp only [List.append_assoc]
  generalize ((FinishState pol b).filterOffsets.map putFixed32).flatten = front
  have hlen : (front ++
      (putFixed32 (diskOffset % 4294967296) ++
        (putFixed32 (diskOffset / 4294967296 % 4294967296) ++
          (putFixed32 diskSize ++ (putFixed32 1 ++ (putFixed32 4 ++ [11 % 256])))))).length =
      front.length + 21 := by
    simp [putFixed32]
  rw [hlen, Nat.add_sub_cancel, List.drop_left]
  simp [putFixed32]

/-- Casting uint64_t subtraction into the ring of residues. -/
theorem sub64_cast (a b : Nat) :
    ((sub64 a b : Nat) : ZMod kWordMod) = (a : ZMod kWordMod) - (b : ZMod kWordMod) := by
  unfold sub64
  rw [ZMod.natCast_mod, Nat.cast_add,
    Nat.cast_sub (Nat.le_of_lt (Nat.mod_lt b (by decide))), ZMod.natCast_self,
    ZMod.natCast_mod]
  ring

/-- Casting uint64_t addition into the ring of residues. -/
theorem add64_cast (a b : Nat) :
    ((add64 a b : Nat) : ZMod kWordMod) = (a : ZMod kWordMod) + (b : ZMod kWordMod) := by
  unfold add64
  rw [ZMod.natCast_mod, Nat.cast_add]

/-- Casting uint64_t multiplication into the ring of residues. -/
theorem mul64_cast (a b : Nat) :
    ((mul64 a b : Nat) : ZMod kWordMod) = (a : ZMod kWordMod) * (b : ZMod kWordMod) := by
  unfold mul64
  rw [ZMod.natCast_mod, Nat.cast_mul]

/-- Unfolding the byte budget of a cons victim list. -/
theorem sumUnitSizes_cons (e : QueueHandle) (l : List QueueHandle) :
    sumUnitSizes (e :: l) = e.reader.OneUnitSize + sumUnitSizes l := by
  simp [sumUnitSizes]

/-- Unfolding the byte budget of an appended victim list. -/
theorem sumUnitSizes_append (a b : List QueueHandle) :
    sumUnitSizes (a ++ b) = sumUnitSizes a + sumUnitSizes b := by
  simp [sumUnitSizes]

/-- An element of the i-th member of a list of lists lies in the flattening. -/
theorem mem_flatten_of_getD {α : Type} :
    ∀ (L : List (List α)) (i : Nat) (x : α), x ∈ L.getD i [] → x ∈ L.flatten := by
  intro L
  induction L with
  | nil => intro i x hx; simp at hx
  | cons q L ih =>
    intro i x hx
    cases i with
    | zero => exact List.mem_flatten.mpr ⟨q, by simp, hx⟩
    | succ i =>
      have := ih i x hx
      simp only [List.flatten_cons, List.mem_append]
      exact Or.inr this

/-- A member list of a flattening with injective images keeps its images
distinct. -/
theorem flatten_map_nodup_component {α β : Type} (f : α → β) :
    ∀ (L : List (List α)) (i : Nat), ((L.flatten).map f).Nodup →
      ((L.getD i []).map f).Nodup := by
  intro L
  induction L with
  | nil => intro i _; cases i <;> simp
  | cons q L ih =>
    intro i hn
    rw [List.flatten_cons, List.map_append, List.nodup_append] at hn
    cases i with
    | zero => exact hn.1
    | succ i => exact ih i hn.2.1

/-- Two different member lists of a flattening with distinct images have
disjoint images. -/
theorem flatten_map_nodup_cross {α β : Type} (f : α → β) :
    ∀ (L : List (List α)) (i j : Nat), ((L.flatten).map f).Nodup → i ≠ j →
      ∀ x ∈ L.getD i [], ∀ y ∈ L.getD j [], f x ≠ f y := by
  intro L
  induction L with
  | nil => intro i j _ _ x hx; cases i <;> simp at hx
  | cons q L ih =>
    intro i j hn hij x hx y hy
    rw [List.flatten_cons, List.map_append, List.nodup_append] at hn
    cases i with
    | zero =>
      cases j with
      | zero => exact absurd rfl hij
      | succ j =>
        intro hfeq
        exact hn.2.2 (List.mem_map_of_mem f hx)
          (hfeq ▸ List.mem_map_of_mem f (mem_flatten_of_getD L j y hy))
    | succ i =>
      cases j with
      | zero =>
        intro hfeq
        exact hn.2.2 (List.mem_map_of_mem f hy)
          (hfeq ▸ List.mem_map_of_mem f (mem_flatten_of_getD L i x hx))
      | succ j =>
        exact ih i j hn.2.1 (fun h => hij (by rw [h])) x hx y hy

/-- Each queue of a well-keyed MultiQueue has distinct keys. -/
theorem getQueue_keys_nodup (s : MQState) (i : Nat) (hn : KeysNodup s) :
    ((getQueue s i).map QueueHandle.key).Nodup :=
  flatten_map_nodup_component QueueHandle.key s.queues i hn

/-- Nodes of two different queues of a well-keyed MultiQueue have
different keys. -/
theorem getQueue_keys_cross (s : MQState) {i j : Nat} (hn : KeysNodup s)
    (hij : i ≠ j) {x y : QueueHandle} (hx : x ∈ getQueue s i) (hy : y ∈ getQueue s j) :
    x.key ≠ y.key :=
  flatten_map_nodup_cross QueueHandle.key s.queues i j hn hij x hx y hy

/-- A node of some queue is a user node of the MultiQueue. -/
theorem mem_allNodes_of_getQueue {s : MQState} {i : Nat} {x : QueueHandle}
    (hx : x ∈ getQueue s i) : x ∈ allNodes s :=
  mem_flatten_of_getD s.queues i x hx

/-- The selection loop of the cold scan: the output extends the
accumulator by a sublist of the traversal holding only cold evictable
readers, and the final budget is the entry budget minus the selected
bytes in uint64_t arithmetic. -/
theorem findColdGo_spec (sn : Nat) :
    ∀ (nodes : List QueueHandle) (memory : Nat) (acc : List QueueHandle),
      ∃ extra,
        (SingleQueue.findColdGo sn nodes memory acc).2 = acc ++ extra ∧
        extra.Sublist nodes ∧
        (∀ e ∈ extra, e.reader.IsCold sn = true ∧ e.reader.CanBeEvict = true) ∧
        (((SingleQueue.findColdGo sn nodes memory acc).1 : ZMod kWordMod) =
          (memory : ZMod kWordMod) - (sumUnitSizes extra : ZMod kWordMod)) := by
  intro nodes
  induction nodes with
  | nil =>
    intro memory acc
    exact ⟨[], by simp [SingleQueue.findColdGo, sumUnitSizes]⟩
  | cons e rest ih =>
    intro memory acc
    by_cases hsel : (e.reader.IsCold sn && e.reader.CanBeEvict) = true
    · have hgo : SingleQueue.findColdGo sn (e :: rest) memory acc =
          (if 0 < sub64 memory e.reader.OneUnitSize then
            SingleQueue.findColdGo sn rest (sub64 memory e.reader.OneUnitSize) (acc ++ [e])
          else
            (sub64 memory e.reader.OneUnitSize, acc ++ [e])) := by
        rw [SingleQueue.findColdGo, if_pos hsel]
      by_cases hm : 0 < sub64 memory e.reader.OneUnitSize
      · obtain ⟨extra, heq, hsub, hcold, hmem⟩ := ih (sub64 memory e.reader.OneUnitSize) (acc ++ [e])
        rw [hgo, if_pos hm]
        refine ⟨e :: extra, ?_, List.Sublist.cons₂ e hsub, ?_, ?_⟩
        · rw [heq, List.append_assoc]
          rfl
        · intro x hx
          rcases List.mem_cons.mp hx with hx | hx
          · subst hx
            exact ⟨(Bool.and_eq_true _ _ |>.mp hsel).1, (Bool.and_eq_true _ _ |>.mp hsel).2⟩
          · exact hcold x hx
        · rw [hmem, sub64_cast, sumUnitSizes_cons, Nat.cast_add]
          ring
      · rw [hgo, if_neg hm]
        refine ⟨[e], rfl, ?_, ?_, ?_⟩
        · exact List.Sublist.cons₂ e (List.nil_sublist rest)
        · intro x hx
          rcases List.mem_cons.mp hx with hx | hx
          · subst hx
            exact ⟨(Bool.and_eq_true _ _ |>.mp hsel).1, (Bool.and_eq_true _ _ |>.mp hsel).2⟩
          · simp at hx
        · show ((sub64 memory e.reader.OneUnitSize : Nat) : ZMod kWordMod) = _
          rw [sub64_cast, sumUnitSizes_cons, sumUnitSizes, List.map_nil, List.sum_nil]
          push_cast
          ring
    · have hgo : SingleQueue.findColdGo sn (e :: rest) memory acc =
          (if 0 < memory then SingleQueue.findColdGo sn rest memory acc
           else (memory, acc)) := by
        rw [SingleQueue.findColdGo, if_neg (by simp [hsel])]
      by_cases hm : 0 < memory
      · obtain ⟨extra, heq, hsub, hcold, hmem⟩ := ih memory acc
        rw [hgo, if_pos hm]
        exact ⟨extra, heq, List.Sublist.cons e hsub, hcold, hmem⟩
      · rw [hgo, if_neg hm]
        exact ⟨[], by simp, List.nil_sublist (e :: rest), by simp, by simp [sumUnitSizes]⟩

/-- The level loop of the cold scan: the output extends the accumulator
by cold evictable nodes drawn from queues 1 to i with pairwise distinct
keys, and the final budget is the entry budget minus the selected bytes. -/
theorem findColdLevels_spec (s : MQState) (sn : Nat) (hn : KeysNodup s) :
    ∀ (i : Nat) (memory : Nat) (acc : List QueueHandle),
      ∃ extra,
        (InternalMultiQueue.findColdLevels s sn i memory acc).2 = acc ++ extra ∧
        (∀ e ∈ extra, (∃ j, 1 ≤ j ∧ j ≤ i ∧ e ∈ getQueue s j) ∧
          e.reader.IsCold sn = true ∧ e.reader.CanBeEvict = true) ∧
        (extra.map QueueHandle.key).Nodup ∧
        (((InternalMultiQueue.findColdLevels s sn i memory acc).1 : ZMod kWordMod) =
          (memory : ZMod kWordMod) - (sumUnitSizes extra : ZMod kWordMod)) := by
  intro i
  induction i with
  | zero =>
    intro memory acc
    exact ⟨[], by simp [InternalMultiQueue.findColdLevels, sumUnitSizes]⟩
  | succ i ih =>
    intro memory acc
    have hstep : InternalMultiQueue.findColdLevels s sn (i + 1) memory acc =
        (if 0 < memory then
          InternalMultiQueue.findColdLevels s sn i
            (SingleQueue.FindColdFilter (getQueue s (i + 1)) memory sn acc).1
            (SingleQueue.FindColdFilter (getQueue s (i + 1)) memory sn acc).2
        else (memory, acc)) := by
      rw [InternalMultiQueue.findColdLevels]
    by_cases hm : 0 < memory
    · obtain ⟨extra1, heq1, hsub1, hcold1, hmem1⟩ :=
        findColdGo_spec sn (getQueue s (i + 1)).reverse memory acc
      obtain ⟨extra2, heq2, hfacts2, hnd2, hmem2⟩ :=
        ih (SingleQueue.FindColdFilter (getQueue s (i + 1)) memory sn acc).1
          (SingleQueue.FindColdFilter (getQueue s (i + 1)) memory sn acc).2
      have hq1 : ∀ e ∈ extra1, e ∈ getQueue s (i + 1) := by
        intro e he
        have := hsub1.subset he
        exact List.mem_reverse.mp this
      rw [hstep, if_pos hm]
      refine ⟨extra1 ++ extra2, ?_, ?_, ?_, ?_⟩
      · rw [heq2]
        have : (SingleQueue.FindColdFilter (getQueue s (i + 1)) memory sn acc).2 =
            acc ++ extra1 := heq1
        rw [this, List.append_assoc]
      · intro e he
        rcases List.mem_append.mp he with he | he
        · exact ⟨⟨i + 1, Nat.succ_le_succ (Nat.zero_le i), Nat.le_refl _, hq1 e he⟩,
            (hcold1 e he).1, (hcold1 e he).2⟩
        · obtain ⟨⟨j, hj1, hj2, hjm⟩, hc, hev⟩ := hfacts2 e he
          exact ⟨⟨j, hj1, Nat.le_succ_of_le hj2, hjm⟩, hc, hev⟩
      · rw [List.map_append, List.nodup_append]
        refine ⟨?_, hnd2, ?_⟩
        · have hrev : ((getQueue s (i + 1)).reverse.map QueueHandle.key).Nodup := by
            rw [List.map_reverse, List.nodup_reverse]
            exact getQueue_keys_nodup s (i + 1) hn
          exact hrev.sublist (hsub1.map QueueHandle.key)
        · intro a ha hb
          obtain ⟨x, hx, hxa⟩ := List.mem_map.mp ha
          obtain ⟨y, hy, hyb⟩ := List.mem_map.mp hb
          obtain ⟨⟨j, hj1, hj2, hjm⟩, _, _⟩ := hfacts2 y hy
          exact getQueue_keys_cross s hn (by omega) (hq1 x hx) hjm
            (hxa.trans hyb.symm)
      · rw [hmem2]
        have : ((SingleQueue.FindColdFilter (getQueue s (i + 1)) memory sn acc).1 : ZMod kWordMod) =
            (memory : ZMod kWordMod) - (sumUnitSizes extra1 : ZMod kWordMod) := hmem1
        rw [this, sumUnitSizes_append, Nat.cast_add]
        ring
    · rw [hstep, if_neg hm]
      exact ⟨[], by simp, by simp, by simp, by simp [sumUnitSizes]⟩

/-- The cold-victim collection: every victim is a cold evictable user
node, the victim keys are pairwise distinct, and a non-empty victim set
covers the byte budget exactly (modulo 2 ^ 64). -/
theorem findColdFilter_spec (s : MQState) (memory sn : Nat) (hn : KeysNodup s) :
    (∀ c ∈ InternalMultiQueue.FindColdFilter s memory sn,
      c ∈ allNodes s ∧ c.reader.IsCold sn = true ∧ c.reader.CanBeEvict = true) ∧
    ((InternalMultiQueue.FindColdFilter s memory sn).map QueueHandle.key).Nodup ∧
    (InternalMultiQueue.FindColdFilter s memory sn ≠ [] →
      sumUnitSizes (InternalMultiQueue.FindColdFilter s memory sn) % kWordMod =
        memory % kWordMod) := by
  obtain ⟨extra, heq, hfacts, hnd, hmem⟩ :=
    findColdLevels_spec s sn hn filters_number memory []
  rw [List.nil_append] at heq
  unfold InternalMultiQueue.FindColdFilter
  by_cases hpos : 0 < (InternalMultiQueue.findColdLevels s sn filters_number memory []).1
  · simp only [hpos, if_pos]
    exact ⟨by intro c hc; simp at hc, by simp, by intro h; exact absurd rfl h⟩
  · simp only [hpos, if_neg]
    rw [heq]
    refine ⟨?_, hnd, ?_⟩
    · intro c hc
      obtain ⟨⟨j, _, _, hjm⟩, hcold, hev⟩ := hfacts c hc
      exact ⟨mem_allNodes_of_getQueue hjm, hcold, hev⟩
    · intro _
      have hz : (InternalMultiQueue.findColdLevels s sn filters_number memory []).1 = 0 := by
        omega
      rw [hz] at hmem
      have : (sumUnitSizes extra : ZMod kWordMod) = (memory : ZMod kWordMod) := by
        have h0 : (0 : ZMod kWordMod) = (memory : ZMod kWordMod) - (sumUnitSizes extra : ZMod kWordMod) := by
          simpa using hmem
        linear_combination h0
      exact (ZMod.natCast_eq_natCast_iff' _ _ _).mp this

/-- The cold handle pass of the benefit check fails exactly on a victim
that can no longer be evicted, and otherwise gives the IOs total. -/
theorem originalColdIOs_spec (colds : List QueueHandle) :
    (InternalMultiQueue.originalColdIOs colds = none ↔
      ¬ (∀ c ∈ colds, c.reader.CanBeEvict = true)) ∧
    ((∀ c ∈ colds, c.reader.CanBeEvict = true) →
      InternalMultiQueue.originalColdIOs colds =
        some ((colds.map (fun c => c.reader.IOs)).sum)) := by
  induction colds with
  | nil => simp [InternalMultiQueue.originalColdIOs]
  | cons c rest ih =>
    constructor
    · rw [InternalMultiQueue.originalColdIOs]
      by_cases hc : c.reader.CanBeEvict = true
      · simp only [hc, if_true]
        constructor
        · intro hnone hall
          have : InternalMultiQueue.originalColdIOs rest = none := by
            cases hrest : InternalMultiQueue.originalColdIOs rest with
            | none => rfl
            | some q => rw [hrest] at hnone; simp at hnone
          have := ih.1.mp this
          exact this (fun x hx => hall x (List.mem_cons_of_mem c hx))
        · intro hnall
          have hrest : InternalMultiQueue.originalColdIOs rest = none := by
            by_contra hne
            cases hrest : InternalMultiQueue.originalColdIOs rest with
            | none => exact hne hrest
            | some q =>
              have : ∀ x ∈ rest, x.reader.CanBeEvict = true := by
                by_contra hnr
                have := ih.1.mpr hnr
                rw [this] at hrest
                simp at hrest
              exact hnall (by
                intro x hx
                rcases List.mem_cons.mp hx with hx | hx
                · subst hx; exact hc
                · exact this x hx)
          rw [hrest]
          rfl
      · simp only [hc, if_false]
        constructor
        · intro _ hall
          exact hc (hall c (List.mem_cons_self c rest))
        · intro _; rfl
    · intro hall
      rw [InternalMultiQueue.originalColdIOs]
      have hc := hall c (List.mem_cons_self c rest)
      simp only [hc, if_true]
      rw [ih.2 (fun x hx => hall x (List.mem_cons_of_mem c hx))]
      simp

/-- The benefit check accepts exactly when every victim is still
evictable and the projected adjusted IOs strictly undercut the original
IOs. -/
theorem canBeAdjusted_iff (colds : List QueueHandle) (hot : QueueHandle) :
    InternalMultiQueue.CanBeAdjusted colds hot = true ↔
      ((∀ c ∈ colds, c.reader.CanBeEvict = true) ∧
        adjustedIOs colds hot < originalIOs colds hot) := by
  unfold InternalMultiQueue.CanBeAdjusted
  by_cases hall : ∀ c ∈ colds, c.reader.CanBeEvict = true
  · rw [(originalColdIOs_spec colds).2 hall]
    show decide ((colds.map (fun h => h.reader.EvictIOs)).sum + hot.reader.LoadIOs <
        (colds.map (fun c => c.reader.IOs)).sum + hot.reader.IOs) = true ↔ _
    rw [decide_eq_true_eq]
    unfold adjustedIOs originalIOs
    exact ⟨fun h => ⟨hall, h⟩, fun h => h.2⟩
  · rw [(originalColdIOs_spec colds).1.mpr hall]
    simp [hall]

/-- C1: the adjustment decision.  The adjustment is applied if and only
if the hot reader can be loaded, the cold scan collected a non-empty
victim set (which then covers the byte budget of one hot unit), every
victim can (still) be evicted, and the projected adjusted IOs are
strictly below the projected original IOs; in particular when the two
projections are equal nothing is applied, and a victim whose
can_be_evicted turned false fails the benefit check and aborts the whole
batch. -/
theorem adjustment_applies_iff (s : MQState) (hot : QueueHandle) (sn : Nat)
    (hn : KeysNodup s) (hfind : findNode s hot.key = some hot) :
    (InternalMultiQueue.AdjustmentApplied s hot.key sn = true ↔
      (hot.reader.CanBeLoaded = true ∧
        InternalMultiQueue.FindColdFilter s hot.reader.OneUnitSize sn ≠ [] ∧
        sumUnitSizes (InternalMultiQueue.FindColdFilter s hot.reader.OneUnitSize sn) % kWordMod =
          hot.reader.OneUnitSize % kWordMod ∧
        (∀ c ∈ InternalMultiQueue.FindColdFilter s hot.reader.OneUnitSize sn,
          c.reader.CanBeEvict = true) ∧
        adjustedIOs (InternalMultiQueue.FindColdFilter s hot.reader.OneUnitSize sn) hot <
          originalIOs (InternalMultiQueue.FindColdFilter s hot.reader.OneUnitSize sn) hot)) ∧
    (InternalMultiQueue.AdjustmentApplied s hot.key sn = true →
      InternalMultiQueue.Adjustment s hot.key sn =
        InternalMultiQueue.ApplyAdjustment s
          (InternalMultiQueue.FindColdFilter s hot.reader.OneUnitSize sn) hot) ∧
    (InternalMultiQueue.AdjustmentApplied s hot.key sn = false →
      InternalMultiQueue.Adjustment s hot.key sn = s) ∧
    (adjustedIOs (InternalMultiQueue.FindColdFilter s hot.reader.OneUnitSize sn) hot =
        originalIOs (InternalMultiQueue.FindColdFilter s hot.reader.OneUnitSize sn) hot →
      InternalMultiQueue.Adjustment s hot.key sn = s) ∧
    (∀ (colds : List QueueHandle) (hot2 : QueueHandle),
      (∃ c ∈ colds, c.reader.CanBeEvict = false) →
        InternalMultiQueue.CanBeAdjusted colds hot2 = false) := by
  have hcover := (findColdFilter_spec s hot.reader.OneUnitSize sn hn).2.2
  have happlied : InternalMultiQueue.AdjustmentApplied s hot.key sn =
      (hot.reader.CanBeLoaded &&
        (!(InternalMultiQueue.FindColdFilter s hot.reader.OneUnitSize sn).isEmpty &&
          InternalMultiQueue.CanBeAdjusted
            (InternalMultiQueue.FindColdFilter s hot.reader.OneUnitSize sn) hot)) := by
    unfold InternalMultiQueue.AdjustmentApplied
    rw [hfind]
  have hadj : InternalMultiQueue.Adjustment s hot.key sn =
      (if hot.reader.CanBeLoaded = true then
        (if (!(InternalMultiQueue.FindColdFilter s hot.reader.OneUnitSize sn).isEmpty &&
            InternalMultiQueue.CanBeAdjusted
              (InternalMultiQueue.FindColdFilter s hot.reader.OneUnitSize sn) hot) = true then
          InternalMultiQueue.ApplyAdjustment s
            (InternalMultiQueue.FindColdFilter s hot.reader.OneUnitSize sn) hot
        else s)
      else s) := by
    unfold InternalMultiQueue.Adjustment
    rw [hfind]
  have hempty : ∀ (l : List QueueHandle), l.isEmpty = false ↔ l ≠ [] := by
    intro l
    cases l <;> simp
  refine ⟨?_, ?_, ?_, ?_, ?_⟩
  · rw [happlied]
    simp only [Bool.and_eq_true, Bool.not_eq_true']
    rw [canBeAdjusted_iff, hempty]
    constructor
    · rintro ⟨hload, hne, hall, hlt⟩
      exact ⟨hload, hne, hcover hne, hall, hlt⟩
    · rintro ⟨hload, hne, _, hall, hlt⟩
      exact ⟨hload, hne, hall, hlt⟩
  · intro happ
    rw [happlied, Bool.and_eq_true] at happ
    rw [hadj, if_pos happ.1, if_pos happ.2]
  · intro happ
    rw [happlied] at happ
    rw [hadj]
    by_cases hload : hot.reader.CanBeLoaded = true
    · rw [hload, Bool.true_and] at happ
      rw [if_pos hload, if_neg (by rw [happ]; simp)]
    · rw [if_neg hload]
  · intro heq
    rw [hadj]
    by_cases hload : hot.reader.CanBeLoaded = true
    · have hcba : InternalMultiQueue.CanBeAdjusted
          (InternalMultiQueue.FindColdFilter s hot.reader.OneUnitSize sn) hot = false := by
        rw [Bool.eq_false_iff]
        intro hcon
        have := (canBeAdjusted_iff _ hot).mp hcon
        rw [heq] at this
        exact lt_irrefl _ this.2
      rw [if_pos hload, if_neg (by rw [hcba]; simp)]
    · rw [if_neg hload]
  · intro colds hot2 ⟨c, hc, hcev⟩
    rw [Bool.eq_false_iff]
    intro hcon
    have := ((canBeAdjusted_iff colds hot2).mp hcon).1 c hc
    rw [hcev] at this
    simp at this

/-- Witness for the adjustment decision: on the concrete MultiQueue the
hot reader is loadable, the scan collects the cold victim covering one
20-byte unit, and the strictly beneficial move is applied. -/
theorem adjustment_applies_iff_witness :
    InternalMultiQueue.AdjustmentApplied adjState hotNode.key 20000 = true :=
  (adjustment_applies_iff adjState hotNode 20000 (by decide) (by decide)).1.mpr
    ⟨by decide, by decide, by decide, by decide, by
      show adjustedIOs [victimNode] hotNode < originalIOs [victimNode] hotNode
      norm_num [adjustedIOs, originalIOs, victimNode, hotNode,
        FilterReaderState.EvictIOs, FilterReaderState.LoadIOs,
        FilterReaderState.IOs, FilterReaderState.FilterUnitsNumber, mkRat]⟩

/-- The usage field does not enter the structural invariant. -/
theorem WF_of_queues_eq (s s2 : MQState) (h : s2.queues = s.queues) (hwf : WF s) :
    WF s2 := by
  unfold WF Homing KeysNodup BoundsOK allNodes getQueue at *
  rw [h]
  exact hwf

/-- Reading a queue of the state after a physical removal. -/
theorem getQueue_removeKey (s : MQState) (k : Nat) (i : Nat) :
    getQueue (removeKey s k) i =
      (getQueue s i).eraseP (fun h => h.key == k) := by
  unfold getQueue removeKey
  simp only [List.getD_eq_getElem?_getD, List.getElem?_map]
  cases s.queues[i]? with
  | none => rfl
  | some q => rfl

/-- Queue count is preserved by a physical removal. -/
theorem length_removeKey (s : MQState) (k : Nat) :
    (removeKey s k).queues.length = s.queues.length := by
  unfold removeKey
  simp

/-- Queue count is preserved by an MRU insertion. -/
theorem length_appendMRU (s : MQState) (i : Nat) (h : QueueHandle) :
    (appendMRU s i h).queues.length = s.queues.length := by
  unfold appendMRU setQueue
  simp

/-- Reading the receiving queue of an MRU insertion. -/
theorem getQueue_appendMRU_self (s : MQState) (i : Nat) (h : QueueHandle)
    (hi : i < s.queues.length) :
    getQueue (appendMRU s i h) i = h :: getQueue s i := by
  unfold appendMRU setQueue getQueue
  simp only [List.getD_eq_getElem?_getD, List.getElem?_set_self hi]
  rfl

/-- Reading any other queue of an MRU insertion. -/
theorem getQueue_appendMRU_ne (s : MQState) (i : Nat) (h : QueueHandle)
    (j : Nat) (hij : i ≠ j) :
    getQueue (appendMRU s i h) j = getQueue s j := by
  unfold appendMRU setQueue getQueue
  simp only [List.getD_eq_getElem?_getD, List.getElem?_set_ne hij]

/-- Physically removing a key whose node is unique removes it from the
flattening. -/
theorem removeKey_flatten (k : Nat) :
    ∀ (L : List (List QueueHandle)),
      ((L.flatten).map QueueHandle.key).Nodup →
      (L.map (List.eraseP (fun h => h.key == k))).flatten =
        (L.flatten).eraseP (fun h => h.key == k) := by
  intro L
  induction L with
  | nil => intro _; rfl
  | cons q L ih =>
    intro hn
    rw [List.flatten_cons, List.map_append, List.nodup_append] at hn
    rw [List.map_cons, List.flatten_cons, List.flatten_cons]
    by_cases hq : ∃ a ∈ q, (a.key == k) = true
    · obtain ⟨a, haq, hak⟩ := hq
      rw [@List.eraseP_append_left QueueHandle (fun h => h.key == k) a hak q L.flatten haq]
      have hnotail : ∀ b ∈ L.flatten, ¬(b.key == k) = true := by
        intro b hb hbk
        exact hn.2.2 (List.mem_map_of_mem QueueHandle.key haq)
          (by
            have : b.key = a.key := by
              have h1 : a.key = k := by simpa using hak
              have h2 : b.key = k := by simpa using hbk
              rw [h1, h2]
            rw [← this]
            exact List.mem_map_of_mem QueueHandle.key hb)
      have htail : (L.map (List.eraseP (fun h => h.key == k))).flatten = L.flatten := by
        rw [ih hn.2.1, List.eraseP_of_forall_not hnotail]
      rw [htail]
    · push_neg at hq
      have hq2 : ∀ a ∈ q, ¬(a.key == k) = true := by
        intro a ha hak
        exact absurd hak (by simpa using hq a ha)
      rw [List.eraseP_of_forall_not hq2, List.eraseP_append_right L.flatten hq2,
        ih hn.2.1]

/-- Prepending into queue i permutes the flattening by a cons. -/
theorem flatten_set_cons_perm {α : Type} :
    ∀ (L : List (List α)) (i : Nat) (x : α), i < L.length →
      ((L.set i (x :: L.getD i [])).flatten).Perm (x :: L.flatten) := by
  intro L
  induction L with
  | nil => intro i x hi; simp at hi
  | cons q L ih =>
    intro i x hi
    cases i with
    | zero =>
      simp only [List.set_cons_zero, List.getD_cons_zero, List.flatten_cons]
      exact List.Perm.refl _
    | succ i =>
      simp only [List.set_cons_succ, List.getD_cons_succ, List.flatten_cons]
      have hperm := ih i x (by simpa using hi)
      exact (List.Perm.append_left q hperm).trans List.perm_middle

/-- The characterization of handle dereference under distinct keys: the
index finds exactly the member node carrying the key. -/
theorem findNode_eq_some_iff (s : MQState) (k : Nat) (h : QueueHandle)
    (hn : KeysNodup s) :
    findNode s k = some h ↔ (h ∈ allNodes s ∧ h.key = k) := by
  constructor
  · intro hf
    exact ⟨List.mem_of_find?_eq_some hf, by simpa using List.find?_some hf⟩
  · rintro ⟨hmem, hkey⟩
    have hsome : ((allNodes s).find? (fun x => x.key == k)).isSome = true := by
      rw [List.find?_isSome]
      exact ⟨h, hmem, by simpa using hkey⟩
    cases hfind : (allNodes s).find? (fun x => x.key == k) with
    | none => rw [hfind] at hsome; simp at hsome
    | some a =>
      have hamem := List.mem_of_find?_eq_some hfind
      have hakey : a.key = k := by simpa using List.find?_some hfind
      have : a = h :=
        List.inj_on_of_nodup_map hn hamem hmem (by rw [hakey, hkey])
      rw [show findNode s k = some a from hfind, this]

/-- The absent-key characterization of the derived index. -/
theorem findNode_eq_none_iff (s : MQState) (k : Nat) :
    findNode s k = none ↔ ∀ x ∈ allNodes s, x.key ≠ k := by
  unfold findNode
  rw [List.find?_eq_none]
  constructor
  · intro hall x hx hk
    exact hall x hx (by simpa using hk)
  · intro hall x hx hk
    exact hall x hx (by simpa using hk)

/-- The node surgery common to all re-homing operations: physically
remove the node of key k and prepend a replacement node with the same
key into queue m.  The lemma collects every aggregate fact the
invariant-preservation proofs need. -/
theorem moveNode_spec (s : MQState) (k : Nat) (h h2 : QueueHandle) (m : Nat)
    (hhom : Homing s) (hn : KeysNodup s) (hb : BoundsOK s)
    (hf : findNode s k = some h)
    (hkey : h2.key = k)
    (hm : m < s.queues.length) :
    (appendMRU (removeKey s k) m h2).queues.length = s.queues.length ∧
    (h2.reader.FilterUnitsNumber = m → Homing (appendMRU (removeKey s k) m h2)) ∧
    KeysNodup (appendMRU (removeKey s k) m h2) ∧
    ((h2.reader.filterUnits ≤ h2.reader.allUnitsNumber ∧
      h2.reader.allUnitsNumber ≤ filters_number ∧
      h2.reader.initUnitsNumber ≤ h2.reader.allUnitsNumber) →
      BoundsOK (appendMRU (removeKey s k) m h2)) ∧
    sumBytes (appendMRU (removeKey s k) m h2) + nodeBytes h =
      sumBytes s + nodeBytes h2 ∧
    (appendMRU (removeKey s k) m h2).usage = s.usage ∧
    findNode (appendMRU (removeKey s k) m h2) k = some h2 ∧
    (∀ k2, k2 ≠ k → findNode (appendMRU (removeKey s k) m h2) k2 = findNode s k2) ∧
    (∀ x, x ∈ allNodes (appendMRU (removeKey s k) m h2) → x = h2 ∨ x ∈ allNodes s) := by
  have hkh : h.key = k := by simpa using List.find?_some hf
  have hhmem : h ∈ allNodes s := List.mem_of_find?_eq_some hf
  have hrm : allNodes (removeKey s k) =
      (allNodes s).eraseP (fun x => x.key == k) := by
    unfold allNodes removeKey at *
    exact removeKey_flatten k s.queues hn
  obtain ⟨a, l₁, l₂, hl₁, hpa, hsplit, herase⟩ :=
    @List.exists_of_eraseP QueueHandle (fun x => x.key == k) (allNodes s) h hhmem
      (by simpa using hkh)
  have hah : a = h := by
    have hamem : a ∈ allNodes s := by rw [hsplit]; simp
    exact List.inj_on_of_nodup_map hn hamem hhmem
      (by
        have hak : a.key = k := by simpa using hpa
        rw [hak, hkh])
  subst hah
  have hrmperm : (allNodes s).Perm (a :: allNodes (removeKey s k)) := by
    rw [hrm, herase, hsplit]
    exact List.perm_middle
  have hrmlen : (removeKey s k).queues.length = s.queues.length :=
    length_removeKey s k
  have hmrm : m < (removeKey s k).queues.length := by rw [hrmlen]; exact hm
  have hresperm : (allNodes (appendMRU (removeKey s k) m h2)).Perm
      (h2 :: allNodes (removeKey s k)) := by
    unfold appendMRU setQueue allNodes
    have := flatten_set_cons_perm (removeKey s k).queues m h2 hmrm
    exact this
  have hnok : ∀ x ∈ allNodes (removeKey s k), x.key ≠ k := by
    rw [hrm, herase]
    intro x hx hxk
    rcases List.mem_append.mp hx with hx | hx
    · exact (by simpa using hl₁ x hx : ¬ x.key = k) hxk
    · have hnd : ((l₁ ++ a :: l₂).map QueueHandle.key).Nodup := by
        rw [← hsplit]; exact hn
      rw [List.map_append, List.nodup_append] at hnd
      have hcons := hnd.2.1
      rw [List.map_cons, List.nodup_cons] at hcons
      exact hcons.1 (by
        rw [hkh, ← hxk]
        exact List.mem_map_of_mem QueueHandle.key hx)
  have hnodup_rm : ((allNodes (removeKey s k)).map QueueHandle.key).Nodup := by
    have hp := hrmperm.map QueueHandle.key
    rw [List.map_cons] at hp
    have := hp.nodup_iff.mp hn
    rw [List.nodup_cons] at this
    exact this.2
  have hnodup2 : KeysNodup (appendMRU (removeKey s k) m h2) := by
    unfold KeysNodup
    rw [(hresperm.map QueueHandle.key).nodup_iff]
    rw [List.map_cons, List.nodup_cons]
    refine ⟨?_, hnodup_rm⟩
    intro hcon
    obtain ⟨x, hx, hxk⟩ := List.mem_map.mp hcon
    exact hnok x hx (by rw [hxk, hkey])
  have hsum : sumBytes (appendMRU (removeKey s k) m h2) + nodeBytes a =
      sumBytes s + nodeBytes h2 := by
    unfold sumBytes
    have e1 : ((allNodes s).map nodeBytes).sum =
        nodeBytes a + ((allNodes (removeKey s k)).map nodeBytes).sum := by
      have := (hrmperm.map nodeBytes).sum_eq
      simpa using this
    have e2 : ((allNodes (appendMRU (removeKey s k) m h2)).map nodeBytes).sum =
        nodeBytes h2 + ((allNodes (removeKey s k)).map nodeBytes).sum := by
      have := (hresperm.map nodeBytes).sum_eq
      simpa using this
    omega
  have hmemchar : ∀ x, x ∈ allNodes (appendMRU (removeKey s k) m h2) ↔
      (x = h2 ∨ x ∈ allNodes (removeKey s k)) := by
    intro x
    rw [hresperm.mem_iff]
    simp
  refine ⟨?_, ?_, hnodup2, ?_, hsum, rfl, ?_, ?_, ?_⟩
  · rw [length_appendMRU, hrmlen]
  · intro hcnt i hi x hx
    by_cases him : i = m
    · subst him
      rw [getQueue_appendMRU_self _ _ _ hmrm] at hx
      rcases List.mem_cons.mp hx with hx | hx
      · rw [hx]; exact hcnt
      · rw [getQueue_removeKey] at hx
        have := (List.eraseP_sublist (getQueue s i)).subset hx
        exact hhom i (by
          rw [length_appendMRU, hrmlen] at hi
          exact hi) x this
    · rw [getQueue_appendMRU_ne _ _ _ _ (fun hc => him hc.symm),
        getQueue_removeKey] at hx
      have := (List.eraseP_sublist (getQueue s i)).subset hx
      exact hhom i (by
        rw [length_appendMRU, hrmlen] at hi
        exact hi) x this
  · intro hb2 x hx
    rcases (hmemchar x).mp hx with hx | hx
    · rw [hx]; exact hb2
    · have : x ∈ allNodes s := by
        rw [hrm] at hx
        exact (List.eraseP_sublist (allNodes s)).subset hx
      exact hb x this
  · rw [findNode_eq_some_iff _ _ _ hnodup2]
    exact ⟨(hmemchar h2).mpr (Or.inl rfl), hkey⟩
  · intro k2 hk2
    have hchar2 : ∀ x, x.key = k2 →
        (x ∈ allNodes (appendMRU (removeKey s k) m h2) ↔ x ∈ allNodes s) := by
      intro x hxk
      rw [hmemchar]
      constructor
      · intro hx
        rcases hx with hx | hx
        · exact absurd (by rw [← hxk, hx, hkey]) hk2
        · rw [hrm] at hx
          exact (List.eraseP_sublist (allNodes s)).subset hx
      · intro hx
        right
        rw [hrmperm.mem_iff] at hx
        rcases List.mem_cons.mp hx with hx | hx
        · exact absurd (by rw [← hxk, hx, hkh]) hk2
        · exact hx
    cases hfind2 : findNode s k2 with
    | none =>
      rw [findNode_eq_none_iff] at hfind2 ⊢
      intro x hx
      by_cases hxk : x.key = k2
      · exact absurd ((hchar2 x hxk).mp hx) (fun hc => hfind2 x hc hxk)
      · exact hxk
    | some b =>
      have hbkey : b.key = k2 := by simpa using List.find?_some hfind2
      rw [findNode_eq_some_iff _ _ _ hnodup2]
      exact ⟨(hchar2 b hbkey).mpr (List.mem_of_find?_eq_some hfind2), hbkey⟩
  · intro x hx
    rcases (hmemchar x).mp hx with hx | hx
    · exact Or.inl hx
    · right
      rw [hrm] at hx
      exact (List.eraseP_sublist (allNodes s)).subset hx

/-- Unfolding EvictHandle on a found evictable node. -/
theorem evictHandle_eq (s : MQState) (k : Nat) (h : QueueHandle)
    (hf : findNode s k = some h) (hev : 1 ≤ h.reader.FilterUnitsNumber) :
    InternalMultiQueue.EvictHandle s k =
      (MQStatus.ok,
        appendMRU (removeKey s k) (h.reader.FilterUnitsNumber - 1)
          { h with reader := h.reader.EvictFilterEffect }) := by
  unfold InternalMultiQueue.EvictHandle
  rw [hf]
  show (if 1 ≤ h.reader.FilterUnitsNumber then
      (MQStatus.ok,
        appendMRU (removeKey s k) (h.reader.FilterUnitsNumber - 1)
          { h with reader := h.reader.EvictFilterEffect })
    else (MQStatus.corruption, s)) = _
  rw [if_pos hev]

/-- Unfolding LoadHandle on a found loadable node. -/
theorem loadHandle_eq (s : MQState) (k : Nat) (h : QueueHandle)
    (hf : findNode s k = some h) (hfn : h.reader.FilterUnitsNumber < filters_number)
    (hlt : h.reader.FilterUnitsNumber < h.reader.allUnitsNumber)
    (hok : h.reader.readOk = true) :
    InternalMultiQueue.LoadHandle s k =
      (MQStatus.ok,
        appendMRU (removeKey s k) (h.reader.FilterUnitsNumber + 1)
          { h with reader := h.reader.LoadFilterEffect }) := by
  unfold InternalMultiQueue.LoadHandle
  rw [hf]
  show (if h.reader.FilterUnitsNumber < filters_number then
      (if h.reader.FilterUnitsNumber < h.reader.allUnitsNumber && h.reader.readOk then
        (MQStatus.ok,
          appendMRU (removeKey s k) (h.reader.FilterUnitsNumber + 1)
            { h with reader := h.reader.LoadFilterEffect })
      else
        (MQStatus.corruption,
          appendMRU (removeKey s k) (h.reader.FilterUnitsNumber + 1) h))
    else (MQStatus.corruption, s)) = _
  rw [if_pos hfn, if_pos (by rw [hok, Bool.and_true]; exact decide_eq_true hlt)]

/-- The node found by a dereference is a user node. -/
theorem findNode_mem (s : MQState) (k : Nat) (h : QueueHandle)
    (hf : findNode s k = some h) : h ∈ allNodes s ∧ h.key = k :=
  ⟨List.mem_of_find?_eq_some hf, by simpa using List.find?_some hf⟩

/-- EvictHandle on a found evictable node under the invariant: it
succeeds, preserves the invariant, leaves usage_ untouched, lowers the
resident bytes by exactly one unit, and rewrites only the touched key in
the index. -/
theorem evictHandle_spec (s : MQState) (k : Nat) (h : QueueHandle)
    (hwf : WF s) (hf : findNode s k = some h)
    (hev : 1 ≤ h.reader.filterUnits) :
    (InternalMultiQueue.EvictHandle s k).1 = MQStatus.ok ∧
    WF (InternalMultiQueue.EvictHandle s k).2 ∧
    (InternalMultiQueue.EvictHandle s k).2.usage = s.usage ∧
    sumBytes (InternalMultiQueue.EvictHandle s k).2 + h.reader.diskSize = sumBytes s ∧
    findNode (InternalMultiQueue.EvictHandle s k).2 k =
      some { h with reader := h.reader.EvictFilterEffect } ∧
    (∀ k2, k2 ≠ k →
      findNode (InternalMultiQueue.EvictHandle s k).2 k2 = findNode s k2) := by
  obtain ⟨hlen, hhom, hn, hb⟩ := hwf
  obtain ⟨hmem, hkeq⟩ := findNode_mem s k h hf
  obtain ⟨hcle, hale, _⟩ := hb h hmem
  have heq := evictHandle_eq s k h hf hev
  have hm : h.reader.FilterUnitsNumber - 1 < s.queues.length := by
    unfold FilterReaderState.FilterUnitsNumber
    rw [hlen]
    omega
  have hspec := moveNode_spec s k h
    { h with reader := h.reader.EvictFilterEffect }
    (h.reader.FilterUnitsNumber - 1) hhom hn hb hf hkeq hm
  obtain ⟨hslen, hshom, hsnd, hsb, hssum, hsusage, hsfind, hsframe, hsmem⟩ := hspec
  have hpair1 : (InternalMultiQueue.EvictHandle s k).1 = MQStatus.ok := by rw [heq]
  have hpair2 : (InternalMultiQueue.EvictHandle s k).2 =
      appendMRU (removeKey s k) (h.reader.FilterUnitsNumber - 1)
        { h with reader := h.reader.EvictFilterEffect } := by rw [heq]
  rw [hpair1, hpair2]
  refine ⟨rfl, ⟨?_, ?_, hsnd, ?_⟩, hsusage, ?_, hsfind, hsframe⟩
  · rw [hslen]; exact hlen
  · exact hshom (by
      unfold FilterReaderState.FilterUnitsNumber FilterReaderState.EvictFilterEffect
      simp)
  · exact hsb (by
      unfold FilterReaderState.EvictFilterEffect
      simp only
      omega)
  · have hsum2 : sumBytes (appendMRU (removeKey s k) (h.reader.FilterUnitsNumber - 1)
        { h with reader := h.reader.EvictFilterEffect }) +
        h.reader.filterUnits * h.reader.diskSize =
        sumBytes s + (h.reader.filterUnits - 1) * h.reader.diskSize := by
      simpa [nodeBytes, FilterReaderState.EvictFilterEffect] using hssum
    have hexp : h.reader.filterUnits * h.reader.diskSize =
        (h.reader.filterUnits - 1) * h.reader.diskSize + h.reader.diskSize := by
      cases hc : h.reader.filterUnits with
      | zero => omega
      | succ n => simp [Nat.succ_mul]
    omega

/-- LoadHandle on a found loadable node under the invariant: it
succeeds, preserves the invariant, leaves usage_ untouched, raises the
resident bytes by exactly one unit, and rewrites only the touched key. -/
theorem loadHandle_spec (s : MQState) (k : Nat) (h : QueueHandle)
    (hwf : WF s) (hf : findNode s k = some h)
    (hlt : h.reader.filterUnits < h.reader.allUnitsNumber)
    (hok : h.reader.readOk = true) :
    (InternalMultiQueue.LoadHandle s k).1 = MQStatus.ok ∧
    WF (InternalMultiQueue.LoadHandle s k).2 ∧
    (InternalMultiQueue.LoadHandle s k).2.usage = s.usage ∧
    sumBytes (InternalMultiQueue.LoadHandle s k).2 =
      sumBytes s + h.reader.diskSize ∧
    findNode (InternalMultiQueue.LoadHandle s k).2 k =
      some { h with reader := h.reader.LoadFilterEffect } ∧
    (∀ k2, k2 ≠ k →
      findNode (InternalMultiQueue.LoadHandle s k).2 k2 = findNode s k2) := by
  obtain ⟨hlen, hhom, hn, hb⟩ := hwf
  obtain ⟨hmem, hkeq⟩ := findNode_mem s k h hf
  obtain ⟨hcle, hale, hile⟩ := hb h hmem
  have hfn : h.reader.FilterUnitsNumber < filters_number := by
    unfold FilterReaderState.FilterUnitsNumber
    omega
  have heq := loadHandle_eq s k h hf hfn hlt hok
  have hm : h.reader.FilterUnitsNumber + 1 < s.queues.length := by
    unfold FilterReaderState.FilterUnitsNumber
    rw [hlen]
    omega
  have hspec := moveNode_spec s k h
    { h with reader := h.reader.LoadFilterEffect }
    (h.reader.FilterUnitsNumber + 1) hhom hn hb hf hkeq hm
  obtain ⟨hslen, hshom, hsnd, hsb, hssum, hsusage, hsfind, hsframe, hsmem⟩ := hspec
  have hpair1 : (InternalMultiQueue.LoadHandle s k).1 = MQStatus.ok := by rw [heq]
  have hpair2 : (InternalMultiQueue.LoadHandle s k).2 =
      appendMRU (removeKey s k) (h.reader.FilterUnitsNumber + 1)
        { h with reader := h.reader.LoadFilterEffect } := by rw [heq]
  rw [hpair1, hpair2]
  refine ⟨rfl, ⟨?_, ?_, hsnd, ?_⟩, hsusage, ?_, hsfind, hsframe⟩
  · rw [hslen]; exact hlen
  · exact hshom (by
      unfold FilterReaderState.FilterUnitsNumber FilterReaderState.LoadFilterEffect
      simp)
  · exact hsb (by
      unfold FilterReaderState.LoadFilterEffect
      simp only
      omega)
  · have hsum2 : sumBytes (appendMRU (removeKey s k) (h.reader.FilterUnitsNumber + 1)
        { h with reader := h.reader.LoadFilterEffect }) +
        h.reader.filterUnits * h.reader.diskSize =
        sumBytes s + (h.reader.filterUnits + 1) * h.reader.diskSize := by
      simpa [nodeBytes, FilterReaderState.LoadFilterEffect] using hssum
    have hexp : (h.reader.filterUnits + 1) * h.reader.diskSize =
        h.reader.filterUnits * h.reader.diskSize + h.reader.diskSize := by
      simp [Nat.succ_mul]
    omega

/-- The eviction loop of an applied adjustment followed by the hot load:
with distinct victim keys, all victims present and evictable, and a
loadable hot node, it preserves the invariant, never touches usage_, and
moves the resident bytes by the victim bytes down and one hot unit up. -/
theorem applyAdjustmentLoop_spec (hotKey hotDisk : Nat) :
    ∀ (colds : List QueueHandle) (s : MQState),
      WF s →
      (∀ c ∈ colds, findNode s c.key = some c ∧ 0 < c.reader.filterUnits) →
      (colds.map QueueHandle.key).Nodup →
      (∃ hh, findNode s hotKey = some hh ∧
        hh.reader.filterUnits < hh.reader.allUnitsNumber ∧
        hh.reader.diskSize = hotDisk ∧
        hh.reader.readOk = true) →
      WF (InternalMultiQueue.applyAdjustmentLoop hotKey (colds.map QueueHandle.key) s) ∧
      (InternalMultiQueue.applyAdjustmentLoop hotKey (colds.map QueueHandle.key) s).usage =
        s.usage ∧
      sumBytes (InternalMultiQueue.applyAdjustmentLoop hotKey (colds.map QueueHandle.key) s) +
        sumUnitSizes colds = sumBytes s + hotDisk := by
  intro colds
  induction colds with
  | nil =>
    intro s hwf _ _ hex
    obtain ⟨hh, hf, hlt, hds, hok⟩ := hex
    obtain ⟨_, hwf2, husage, hsum, _, _⟩ := loadHandle_spec s hotKey hh hwf hf hlt hok
    refine ⟨hwf2, husage, ?_⟩
    show sumBytes (InternalMultiQueue.LoadHandle s hotKey).2 +
      sumUnitSizes [] = sumBytes s + hotDisk
    rw [hsum, hds]
    simp [sumUnitSizes]
  | cons c rest ih =>
    intro s hwf hcold hnd hex
    have hc := hcold c (List.mem_cons_self c rest)
    obtain ⟨hst, hwf2, husage2, hsum2, hfindc, hframe⟩ :=
      evictHandle_spec s c.key c hwf hc.1 hc.2
    have hkeyne : ∀ x ∈ rest, x.key ≠ c.key := by
      intro x hx hk
      rw [List.map_cons, List.nodup_cons] at hnd
      exact hnd.1 (hk ▸ List.mem_map_of_mem QueueHandle.key hx)
    have hloop : InternalMultiQueue.applyAdjustmentLoop hotKey
        ((c :: rest).map QueueHandle.key) s =
        InternalMultiQueue.applyAdjustmentLoop hotKey (rest.map QueueHandle.key)
          (InternalMultiQueue.EvictHandle s c.key).2 := by
      rw [List.map_cons, InternalMultiQueue.applyAdjustmentLoop, if_pos hst]
    have hex2 : ∃ hh, findNode (InternalMultiQueue.EvictHandle s c.key).2 hotKey = some hh ∧
        hh.reader.filterUnits < hh.reader.allUnitsNumber ∧
        hh.reader.diskSize = hotDisk ∧
        hh.reader.readOk = true := by
      obtain ⟨hh, hf, hlt, hds, hok⟩ := hex
      by_cases hek : hotKey = c.key
      · subst hek
        have : hh = c := by
          rw [hc.1] at hf
          exact (Option.some.injEq _ _ ▸ hf).symm ▸ rfl
        subst this
        refine ⟨{ hh with reader := hh.reader.EvictFilterEffect }, hfindc, ?_, hds, hok⟩
        unfold FilterReaderState.EvictFilterEffect
        simp only
        omega
      · exact ⟨hh, by rw [hframe hotKey hek]; exact hf, hlt, hds, hok⟩
    have hrest : ∀ x ∈ rest,
        findNode (InternalMultiQueue.EvictHandle s c.key).2 x.key = some x ∧
        0 < x.reader.filterUnits := by
      intro x hx
      refine ⟨?_, (hcold x (List.mem_cons_of_mem c hx)).2⟩
      rw [hframe x.key (hkeyne x hx)]
      exact (hcold x (List.mem_cons_of_mem c hx)).1
    have hndrest : (rest.map QueueHandle.key).Nodup := by
      rw [List.map_cons, List.nodup_cons] at hnd
      exact hnd.2
    obtain ⟨hwf3, husage3, hsum3⟩ :=
      ih (InternalMultiQueue.EvictHandle s c.key).2 hwf2 hrest hndrest hex2
    rw [hloop]
    refine ⟨hwf3, by rw [husage3, husage2], ?_⟩
    rw [sumUnitSizes_cons]
    have hone : c.reader.OneUnitSize = c.reader.diskSize := rfl
    omega

/-- ApplyAdjustment is the eviction loop over the victim keys. -/
theorem applyAdjustment_eq (s : MQState) (colds : List QueueHandle)
    (hot : QueueHandle) :
    InternalMultiQueue.ApplyAdjustment s colds hot =
      InternalMultiQueue.applyAdjustmentLoop hot.key (colds.map QueueHandle.key) s :=
  rfl

/-- Unfolding Adjustment on a missing hot handle. -/
theorem adjustment_eq_none (s : MQState) (hotKey sn : Nat)
    (hf : findNode s hotKey = none) :
    InternalMultiQueue.Adjustment s hotKey sn = s := by
  unfold InternalMultiQueue.Adjustment
  rw [hf]

/-- Unfolding Adjustment on a found hot handle. -/
theorem adjustment_eq_some (s : MQState) (hotKey sn : Nat) (hot : QueueHandle)
    (hf : findNode s hotKey = some hot) :
    InternalMultiQueue.Adjustment s hotKey sn =
      (if hot.reader.CanBeLoaded = true then
        (if (!(InternalMultiQueue.FindColdFilter s hot.reader.OneUnitSize sn).isEmpty &&
            InternalMultiQueue.CanBeAdjusted
              (InternalMultiQueue.FindColdFilter s hot.reader.OneUnitSize sn) hot) = true then
          InternalMultiQueue.ApplyAdjustment s
            (InternalMultiQueue.FindColdFilter s hot.reader.OneUnitSize sn) hot
        else s)
      else s) := by
  unfold InternalMultiQueue.Adjustment
  rw [hf]

/-- Adjustment preserves the structural invariant, never changes usage_,
and preserves the usage accounting: an applied adjustment trades exactly
the victim bytes (which cover one hot unit modulo 2 ^ 64) for one hot
unit. -/
theorem adjustment_preserves (s : MQState) (hotKey sn : Nat) (hwf : WF s)
    (hreads : ∀ x ∈ allNodes s, x.reader.readOk = true) :
    WF (InternalMultiQueue.Adjustment s hotKey sn) ∧
    (InternalMultiQueue.Adjustment s hotKey sn).usage = s.usage ∧
    (UsageOK s → UsageOK (InternalMultiQueue.Adjustment s hotKey sn)) := by
  cases hfind : findNode s hotKey with
  | none =>
    rw [adjustment_eq_none s hotKey sn hfind]
    exact ⟨hwf, rfl, fun h => h⟩
  | some hot =>
    rw [adjustment_eq_some s hotKey sn hot hfind]
    by_cases hload : hot.reader.CanBeLoaded = true
    · rw [if_pos hload]
      by_cases hguard : (!(InternalMultiQueue.FindColdFilter s hot.reader.OneUnitSize sn).isEmpty &&
          InternalMultiQueue.CanBeAdjusted
            (InternalMultiQueue.FindColdFilter s hot.reader.OneUnitSize sn) hot) = true
      · rw [if_pos hguard, applyAdjustment_eq]
        rw [Bool.and_eq_true, Bool.not_eq_true'] at hguard
        have hne : InternalMultiQueue.FindColdFilter s hot.reader.OneUnitSize sn ≠ [] := by
          intro hcon
          rw [hcon] at hguard
          simp at hguard
        have hev := ((canBeAdjusted_iff _ hot).mp hguard.2).1
        obtain ⟨hfacts, hndkeys, hcover⟩ :=
          findColdFilter_spec s hot.reader.OneUnitSize sn hwf.2.2.1
        have hcold2 : ∀ c ∈ InternalMultiQueue.FindColdFilter s hot.reader.OneUnitSize sn,
            findNode s c.key = some c ∧ 0 < c.reader.filterUnits := by
          intro c hc
          refine ⟨(findNode_eq_some_iff s c.key c hwf.2.2.1).mpr
            ⟨(hfacts c hc).1, rfl⟩, ?_⟩
          have := (hfacts c hc).2.2
          unfold FilterReaderState.CanBeEvict FilterReaderState.FilterUnitsNumber at this
          simpa using this
        have hex : ∃ hh, findNode s hot.key = some hh ∧
            hh.reader.filterUnits < hh.reader.allUnitsNumber ∧
            hh.reader.diskSize = hot.reader.diskSize ∧
            hh.reader.readOk = true := by
          have hkeq : hot.key = hotKey := (findNode_mem s hotKey hot hfind).2
          refine ⟨hot, by rw [hkeq]; exact hfind, ?_, rfl,
            hreads hot (findNode_mem s hotKey hot hfind).1⟩
          unfold FilterReaderState.CanBeLoaded FilterReaderState.FilterUnitsNumber at hload
          simpa using hload
        obtain ⟨hwf2, husage2, hsum2⟩ :=
          applyAdjustmentLoop_spec hot.key hot.reader.diskSize
            (InternalMultiQueue.FindColdFilter s hot.reader.OneUnitSize sn) s hwf
            hcold2 hndkeys hex
        refine ⟨hwf2, husage2, ?_⟩
        intro hu
        unfold UsageOK at hu ⊢
        rw [husage2, hu]
        have hcov := hcover hne
        have hcast : (sumUnitSizes (InternalMultiQueue.FindColdFilter s
            hot.reader.OneUnitSize sn) : ZMod kWordMod) =
            (hot.reader.OneUnitSize : ZMod kWordMod) :=
          (ZMod.natCast_eq_natCast_iff' _ _ _).mpr hcov
        have heq2 := congrArg (fun n : Nat => (n : ZMod kWordMod)) hsum2
        simp only [Nat.cast_add] at heq2
        have hone : (hot.reader.OneUnitSize : ZMod kWordMod) =
            (hot.reader.diskSize : ZMod kWordMod) := rfl
        rw [hcast, hone] at heq2
        have hfin := add_right_cancel heq2
        exact ((ZMod.natCast_eq_natCast_iff' _ _ _).mp hfin).symm
      · rw [if_neg hguard]
        exact ⟨hwf, rfl, fun h => h⟩
    · rw [if_neg hload]
      exact ⟨hwf, rfl, fun h => h⟩

/-- uint64_t results are already reduced. -/
theorem sub64_mod_self (a b : Nat) : sub64 a b % kWordMod = sub64 a b :=
  Nat.mod_eq_of_lt (by unfold sub64; exact Nat.mod_lt _ (by decide))

/-- uint64_t results are already reduced. -/
theorem add64_mod_self (a b : Nat) : add64 a b % kWordMod = add64 a b :=
  Nat.mod_eq_of_lt (by unfold add64; exact Nat.mod_lt _ (by decide))

/-- A reduced counter congruent to the exact total equals the reduced
total. -/
theorem usage_eq_mod (x S : Nat)
    (h : (x : ZMod kWordMod) = (S : ZMod kWordMod))
    (hx : x % kWordMod = x) : x = S % kWordMod := by
  have := (ZMod.natCast_eq_natCast_iff' x S kWordMod).mp h
  rw [← this, hx]

/-- The accounting invariant as a residue equation. -/
theorem usageOK_cast (s : MQState) (hu : UsageOK s) :
    (s.usage : ZMod kWordMod) = (sumBytes s : ZMod kWordMod) := by
  rw [hu, ZMod.natCast_mod]

/-- Physical removal of a found node under the invariant. -/
theorem removeKey_spec (s : MQState) (k : Nat) (h : QueueHandle)
    (hwf : WF s) (hf : findNode s k = some h) :
    (removeKey s k).queues.length = s.queues.length ∧
    Homing (removeKey s k) ∧
    KeysNodup (removeKey s k) ∧
    BoundsOK (removeKey s k) ∧
    sumBytes (removeKey s k) + nodeBytes h = sumBytes s ∧
    (removeKey s k).usage = s.usage := by
  obtain ⟨hlen, hhom, hn, hb⟩ := hwf
  have hkh : h.key = k := by simpa using List.find?_some hf
  have hhmem : h ∈ allNodes s := List.mem_of_find?_eq_some hf
  have hrm : allNodes (removeKey s k) =
      (allNodes s).eraseP (fun x => x.key == k) := by
    unfold allNodes removeKey at *
    exact removeKey_flatten k s.queues hn
  obtain ⟨a, l₁, l₂, hl₁, hpa, hsplit, herase⟩ :=
    @List.exists_of_eraseP QueueHandle (fun x => x.key == k) (allNodes s) h hhmem
      (by simpa using hkh)
  have hah : a = h := by
    have hamem : a ∈ allNodes s := by rw [hsplit]; simp
    exact List.inj_on_of_nodup_map hn hamem hhmem
      (by
        have hak : a.key = k := by simpa using hpa
        rw [hak, hkh])
  subst hah
  have hrmperm : (allNodes s).Perm (a :: allNodes (removeKey s k)) := by
    rw [hrm, herase, hsplit]
    exact List.perm_middle
  refine ⟨length_removeKey s k, ?_, ?_, ?_, ?_, rfl⟩
  · intro i hi x hx
    rw [getQueue_removeKey] at hx
    exact hhom i (by rw [length_removeKey] at hi; exact hi) x
      ((List.eraseP_sublist (getQueue s i)).subset hx)
  · have hp := hrmperm.map QueueHandle.key
    rw [List.map_cons] at hp
    have := hp.nodup_iff.mp hn
    rw [List.nodup_cons] at this
    exact this.2
  · intro x hx
    rw [hrm] at hx
    exact hb x ((List.eraseP_sublist (allNodes s)).subset hx)
  · have e1 : ((allNodes s).map nodeBytes).sum =
        nodeBytes a + ((allNodes (removeKey s k)).map nodeBytes).sum := by
      have := (hrmperm.map nodeBytes).sum_eq
      simpa using this
    unfold sumBytes
    omega

/-- Insert (UpdateHandle revision) on a fresh key: a reader whose
resident count equals its initial count is homed correctly and charged
correctly. -/
theorem insert_spec (s : MQState) (k : Nat) (reader : FilterReaderState)
    (hwf : WF s)
    (hfresh : ∀ x ∈ allNodes s, x.key ≠ k)
    (hcnt : reader.filterUnits = reader.initUnitsNumber)
    (hinit : reader.initUnitsNumber ≤ reader.allUnitsNumber)
    (hall : reader.allUnitsNumber ≤ filters_number) :
    WF (InternalMultiQueue.Insert s k reader) ∧
    (UsageOK s → UsageOK (InternalMultiQueue.Insert s k reader)) := by
  obtain ⟨hlen, hhom, hn, hb⟩ := hwf
  have hm : reader.LoadFilterNumber < s.queues.length := by
    unfold FilterReaderState.LoadFilterNumber
    omega
  have hperm : (allNodes (appendMRU s reader.LoadFilterNumber
      { key := k, reader := reader })).Perm
      ({ key := k, reader := reader } :: allNodes s) := by
    unfold appendMRU setQueue allNodes
    exact flatten_set_cons_perm s.queues reader.LoadFilterNumber _ hm
  have hq : (InternalMultiQueue.Insert s k reader).queues =
      (appendMRU s reader.LoadFilterNumber { key := k, reader := reader }).queues := rfl
  have hwf2 : WF (appendMRU s reader.LoadFilterNumber { key := k, reader := reader }) := by
    refine ⟨by rw [length_appendMRU]; exact hlen, ?_, ?_, ?_⟩
    · intro i hi x hx
      rw [length_appendMRU] at hi
      by_cases him : i = reader.LoadFilterNumber
      · have hx2 : x ∈ getQueue (appendMRU s reader.LoadFilterNumber
            { key := k, reader := reader }) reader.LoadFilterNumber := him ▸ hx
        rw [getQueue_appendMRU_self s _ _ hm] at hx2
        rcases List.mem_cons.mp hx2 with hx3 | hx3
        · rw [hx3, him]
          exact hcnt
        · rw [him]
          exact hhom reader.LoadFilterNumber (him ▸ hi) x hx3
      · rw [getQueue_appendMRU_ne s _ _ i (fun hc => him hc.symm)] at hx
        exact hhom i hi x hx
    · unfold KeysNodup
      rw [(hperm.map QueueHandle.key).nodup_iff, List.map_cons, List.nodup_cons]
      refine ⟨?_, hn⟩
      intro hcon
      obtain ⟨x, hx, hxk⟩ := List.mem_map.mp hcon
      exact hfresh x hx hxk
    · intro x hx
      rcases List.mem_cons.mp ((hperm.mem_iff).mp hx) with hx | hx
      · rw [hx]
        refine ⟨?_, hall, hinit⟩
        show reader.filterUnits ≤ reader.allUnitsNumber
        omega
      · exact hb x hx
  refine ⟨WF_of_queues_eq _ _ hq hwf2, ?_⟩
  intro hu
  unfold UsageOK
  have hsum : sumBytes (InternalMultiQueue.Insert s k reader) =
      sumBytes s + reader.filterUnits * reader.diskSize := by
    show sumBytes (appendMRU s reader.LoadFilterNumber { key := k, reader := reader }) = _
    unfold sumBytes
    have := (hperm.map nodeBytes).sum_eq
    simp only [List.map_cons, List.sum_cons] at this
    rw [this]
    have : nodeBytes { key := k, reader := reader } =
        reader.filterUnits * reader.diskSize := rfl
    omega
  have husage : (InternalMultiQueue.Insert s k reader).usage =
      add64 s.usage (mul64 reader.LoadFilterNumber reader.OneUnitSize) := rfl
  rw [husage, hsum]
  apply usage_eq_mod
  · rw [add64_cast, mul64_cast, usageOK_cast s hu]
    push_cast
    unfold FilterReaderState.LoadFilterNumber FilterReaderState.OneUnitSize
    rw [hcnt]
  · exact add64_mod_self _ _

/-- Unfolding UpdateHandle on a found handle. -/
theorem updateHandle_eq (s : MQState) (k : Nat) (h : QueueHandle)
    (psn : Option Nat) (hf : findNode s k = some h) :
    InternalMultiQueue.UpdateHandle s k psn =
      (match psn with
        | some sn => InternalMultiQueue.Adjustment
            (appendMRU (removeKey s k) h.reader.FilterUnitsNumber h) k sn
        | none => appendMRU (removeKey s k) h.reader.FilterUnitsNumber h) := by
  unfold InternalMultiQueue.UpdateHandle
  rw [hf]

/-- The lookup-update fast path preserves the invariant and the
accounting. -/
theorem updateHandle_spec (s : MQState) (k : Nat) (psn : Option Nat)
    (hwf : WF s) (hreads : ∀ x ∈ allNodes s, x.reader.readOk = true) :
    WF (InternalMultiQueue.UpdateHandle s k psn) ∧
    (InternalMultiQueue.UpdateHandle s k psn).usage = s.usage ∧
    (UsageOK s → UsageOK (InternalMultiQueue.UpdateHandle s k psn)) := by
  cases hf : findNode s k with
  | none =>
    have : InternalMultiQueue.UpdateHandle s k psn = s := by
      unfold InternalMultiQueue.UpdateHandle
      rw [hf]
    rw [this]
    exact ⟨hwf, rfl, fun h => h⟩
  | some h =>
    obtain ⟨hlen, hhom, hn, hb⟩ := hwf
    obtain ⟨hmem, hkeq⟩ := findNode_mem s k h hf
    obtain ⟨hcle, hale, _⟩ := hb h hmem
    have hm : h.reader.FilterUnitsNumber < s.queues.length := by
      unfold FilterReaderState.FilterUnitsNumber
      omega
    obtain ⟨hslen, hshom, hsnd, hsb, hssum, hsusage, _, _, hsmem⟩ :=
      moveNode_spec s k h h h.reader.FilterUnitsNumber hhom hn hb hf hkeq hm
    have hwf1 : WF (appendMRU (removeKey s k) h.reader.FilterUnitsNumber h) := by
      refine ⟨by rw [hslen]; exact hlen, hshom rfl, hsnd, hsb ⟨hcle, hale, (hb h hmem).2.2⟩⟩
    have hsum1 : sumBytes (appendMRU (removeKey s k) h.reader.FilterUnitsNumber h) =
        sumBytes s := by omega
    rw [updateHandle_eq s k h psn hf]
    cases psn with
    | none =>
      refine ⟨hwf1, hsusage, ?_⟩
      intro hu
      unfold UsageOK at hu ⊢
      rw [hsusage, hsum1, hu]
    | some sn =>
      have hreads1 : ∀ x ∈ allNodes (appendMRU (removeKey s k)
          h.reader.FilterUnitsNumber h), x.reader.readOk = true := by
        intro x hx
        rcases hsmem x hx with hxe | hx2
        · rw [hxe]
          exact hreads h hmem
        · exact hreads x hx2
      obtain ⟨hwfa, husagea, hua⟩ :=
        adjustment_preserves (appendMRU (removeKey s k) h.reader.FilterUnitsNumber h)
          k sn hwf1 hreads1
      refine ⟨hwfa, by rw [husagea, hsusage], ?_⟩
      intro hu
      apply hua
      unfold UsageOK at hu ⊢
      rw [hsusage, hsum1, hu]

/-- Each iteration of the Release loop preserves the invariant and the
accounting. -/
theorem releaseLoop_spec (k : Nat) :
    ∀ (fuel : Nat) (s : MQState), WF s →
      WF (InternalMultiQueue.releaseLoop k fuel s) ∧
      (UsageOK s → UsageOK (InternalMultiQueue.releaseLoop k fuel s)) := by
  intro fuel
  induction fuel with
  | zero =>
    intro s hwf
    exact ⟨hwf, fun h => h⟩
  | succ fuel ih =>
    intro s hwf
    cases hf : findNode s k with
    | none =>
      have : InternalMultiQueue.releaseLoop k (fuel + 1) s = s := by
        rw [InternalMultiQueue.releaseLoop, hf]
      rw [this]
      exact ⟨hwf, fun h => h⟩
    | some h =>
      by_cases hev : h.reader.CanBeEvict = true
      · have hev2 : 1 ≤ h.reader.filterUnits := by
          unfold FilterReaderState.CanBeEvict FilterReaderState.FilterUnitsNumber at hev
          simpa using hev
        obtain ⟨hst, hwf2, husage2, hsum2, _, _⟩ :=
          evictHandle_spec s k h hwf hf hev2
        have hstep : InternalMultiQueue.releaseLoop k (fuel + 1) s =
            InternalMultiQueue.releaseLoop k fuel
              { (InternalMultiQueue.EvictHandle s k).2 with
                usage := sub64 (InternalMultiQueue.EvictHandle s k).2.usage
                  h.reader.OneUnitSize } := by
          rw [InternalMultiQueue.releaseLoop, hf]
          show (if h.reader.CanBeEvict = true then _ else s) = _
          rw [if_pos hev]
        rw [hstep]
        have hwf3 : WF { (InternalMultiQueue.EvictHandle s k).2 with
            usage := sub64 (InternalMultiQueue.EvictHandle s k).2.usage
              h.reader.OneUnitSize } :=
          WF_of_queues_eq _ _ rfl hwf2
        refine ⟨(ih _ hwf3).1, ?_⟩
        intro hu
        apply (ih _ hwf3).2
        unfold UsageOK
        show sub64 (InternalMultiQueue.EvictHandle s k).2.usage h.reader.OneUnitSize =
          sumBytes (InternalMultiQueue.EvictHandle s k).2 % kWordMod
        apply usage_eq_mod
        · rw [sub64_cast, husage2, usageOK_cast s hu]
          have hsumcast := congrArg (fun n : Nat => (n : ZMod kWordMod)) hsum2
          simp only [Nat.cast_add] at hsumcast
          have hone : (h.reader.OneUnitSize : ZMod kWordMod) =
              (h.reader.diskSize : ZMod kWordMod) := rfl
          rw [hone]
          linear_combination -hsumcast
        · exact sub64_mod_self _ _
      · have : InternalMultiQueue.releaseLoop k (fuel + 1) s = s := by
          rw [InternalMultiQueue.releaseLoop, hf]
          show (if h.reader.CanBeEvict = true then _ else s) = s
          rw [if_neg hev]
        rw [this]
        exact ⟨hwf, fun h => h⟩

/-- Release preserves the invariant and the accounting. -/
theorem release_spec (s : MQState) (k : Nat) (hwf : WF s) :
    WF (InternalMultiQueue.Release s k) ∧
    (UsageOK s → UsageOK (InternalMultiQueue.Release s k)) := by
  unfold InternalMultiQueue.Release
  cases hf : findNode s k with
  | none => exact ⟨hwf, fun h => h⟩
  | some h => exact releaseLoop_spec k h.reader.FilterUnitsNumber s hwf

/-- GoBackToInitFilter preserves the invariant and the accounting. -/
theorem goBackToInitFilter_spec (s : MQState) (k : Nat) (hwf : WF s) :
    WF (InternalMultiQueue.GoBackToInitFilter s k) ∧
    (UsageOK s → UsageOK (InternalMultiQueue.GoBackToInitFilter s k)) := by
  cases hf : findNode s k with
  | none =>
    have : InternalMultiQueue.GoBackToInitFilter s k = s := by
      unfold InternalMultiQueue.GoBackToInitFilter
      rw [hf]
    rw [this]
    exact ⟨hwf, fun h => h⟩
  | some h =>
    obtain ⟨hlen, hhom, hn, hb⟩ := hwf
    obtain ⟨hmem, hkeq⟩ := findNode_mem s k h hf
    obtain ⟨hcle, hale, hile⟩ := hb h hmem
    have hm : h.reader.LoadFilterNumber < s.queues.length := by
      unfold FilterReaderState.LoadFilterNumber
      omega
    obtain ⟨hslen, hshom, hsnd, hsb, hssum, hsusage, _, _, _⟩ :=
      moveNode_spec s k h
        { h with reader := { h.reader with filterUnits := h.reader.LoadFilterNumber } }
        h.reader.LoadFilterNumber hhom hn hb hf hkeq hm
    have heq : InternalMultiQueue.GoBackToInitFilter s k =
        { appendMRU (removeKey s k) h.reader.LoadFilterNumber
            { h with reader := { h.reader with filterUnits := h.reader.LoadFilterNumber } } with
          usage := add64 (appendMRU (removeKey s k) h.reader.LoadFilterNumber
              { h with reader := { h.reader with filterUnits := h.reader.LoadFilterNumber } }).usage
            (mul64 (sub64 h.reader.LoadFilterNumber h.reader.FilterUnitsNumber)
              h.reader.OneUnitSize) } := by
      unfold InternalMultiQueue.GoBackToInitFilter
      rw [hf]
    rw [heq]
    have hwf2 : WF (appendMRU (removeKey s k) h.reader.LoadFilterNumber
        { h with reader := { h.reader with filterUnits := h.reader.LoadFilterNumber } }) := by
      refine ⟨by rw [hslen]; exact hlen, hshom rfl, hsnd, hsb ?_⟩
      unfold FilterReaderState.LoadFilterNumber
      simp only
      exact ⟨hile, hale, hile⟩
    refine ⟨WF_of_queues_eq _ _ rfl hwf2, ?_⟩
    intro hu
    unfold UsageOK
    show add64 (appendMRU (removeKey s k) h.reader.LoadFilterNumber _).usage
      (mul64 (sub64 h.reader.LoadFilterNumber h.reader.FilterUnitsNumber)
        h.reader.OneUnitSize) = _ % kWordMod
    apply usage_eq_mod
    · rw [add64_cast, mul64_cast, sub64_cast, hsusage, usageOK_cast s hu]
      have hsumcast := congrArg (fun n : Nat => (n : ZMod kWordMod)) hssum
      simp only [Nat.cast_add] at hsumcast
      have hb1 : (nodeBytes h : ZMod kWordMod) =
          (h.reader.FilterUnitsNumber : ZMod kWordMod) *
            (h.reader.OneUnitSize : ZMod kWordMod) := by
        unfold nodeBytes FilterReaderState.FilterUnitsNumber FilterReaderState.OneUnitSize
        push_cast
        ring
      have hb2 : (nodeBytes { h with reader :=
          { h.reader with filterUnits := h.reader.LoadFilterNumber } } : ZMod kWordMod) =
          (h.reader.LoadFilterNumber : ZMod kWordMod) *
            (h.reader.OneUnitSize : ZMod kWordMod) := by
        unfold nodeBytes FilterReaderState.LoadFilterNumber FilterReaderState.OneUnitSize
        push_cast
        ring
      rw [hb1, hb2] at hsumcast
      have hgoal : (sumBytes s : ZMod kWordMod) +
          ((h.reader.LoadFilterNumber : ZMod kWordMod) -
            (h.reader.FilterUnitsNumber : ZMod kWordMod)) *
            (h.reader.OneUnitSize : ZMod kWordMod) =
          (sumBytes (appendMRU (removeKey s k) h.reader.LoadFilterNumber
            { h with reader :=
              { h.reader with filterUnits := h.reader.LoadFilterNumber } }) :
            ZMod kWordMod) := by
        linear_combination -hsumcast
      exact hgoal
    · exact add64_mod_self _ _

/-- Erase preserves the invariant and the accounting. -/
theorem erase_spec (s : MQState) (k : Nat) (hwf : WF s) :
    WF (InternalMultiQueue.Erase s k) ∧
    (UsageOK s → UsageOK (InternalMultiQueue.Erase s k)) := by
  cases hf : findNode s k with
  | none =>
    have : InternalMultiQueue.Erase s k = s := by
      unfold InternalMultiQueue.Erase
      rw [hf]
    rw [this]
    exact ⟨hwf, fun h => h⟩
  | some h =>
    obtain ⟨hrlen, hrhom, hrnd, hrb, hrsum, hrusage⟩ := removeKey_spec s k h hwf hf
    have heq : InternalMultiQueue.Erase s k =
        { removeKey s k with usage := sub64 s.usage h.reader.Size } := by
      unfold InternalMultiQueue.Erase
      rw [hf]
    rw [heq]
    have hwf2 : WF (removeKey s k) := ⟨by rw [hrlen]; exact hwf.1, hrhom, hrnd, hrb⟩
    refine ⟨WF_of_queues_eq _ _ rfl hwf2, ?_⟩
    intro hu
    unfold UsageOK
    show sub64 s.usage h.reader.Size = sumBytes (removeKey s k) % kWordMod
    apply usage_eq_mod
    · rw [sub64_cast, usageOK_cast s hu]
      have hsize : (h.reader.Size : ZMod kWordMod) = (nodeBytes h : ZMod kWordMod) := by
        unfold FilterReaderState.Size nodeBytes mul64
          FilterReaderState.FilterUnitsNumber
        rw [ZMod.natCast_mod]
      have hsumcast := congrArg (fun n : Nat => (n : ZMod kWordMod)) hrsum
      simp only [Nat.cast_add] at hsumcast
      rw [hsize]
      linear_combination -hsumcast
    · exact sub64_mod_self _ _

/-- C10: the public interface of the KeyMayMatch revision is safe on null
handles and absent keys: Lookup of an unindexed key is the null handle,
Value of the null handle is the null reader, KeyMayMatch on the null
handle answers the conservative true and leaves the state untouched, and
Erase of an unindexed key leaves queues, index and usage unchanged. -/
theorem multiqueue_null_safety (s : MQState) (k blockOffset : Nat)
    (parsedSn : Option Nat) (readerKMM : FilterReaderState → Nat → Bool)
    (habs : findNode s k = none) :
    InternalMultiQueue2.Lookup s k = none ∧
    InternalMultiQueue2.Value s none = none ∧
    (InternalMultiQueue2.KeyMayMatch s none blockOffset parsedSn readerKMM).1 = true ∧
    (InternalMultiQueue2.KeyMayMatch s none blockOffset parsedSn readerKMM).2 = s ∧
    InternalMultiQueue2.Erase s k = s := by
  refine ⟨?_, rfl, rfl, rfl, ?_⟩
  · unfold InternalMultiQueue2.Lookup
    rw [habs]
  · unfold InternalMultiQueue2.Erase
    rw [habs]

/-- Witness for the null safety on a populated MultiQueue and the absent
key 99. -/
theorem multiqueue_null_safety_witness :
    InternalMultiQueue2.Lookup adjState 99 = none ∧
    InternalMultiQueue2.Value adjState none = none ∧
    (InternalMultiQueue2.KeyMayMatch adjState none 0 none (fun _ _ => true)).1 = true ∧
    (InternalMultiQueue2.KeyMayMatch adjState none 0 none (fun _ _ => true)).2 = adjState ∧
    InternalMultiQueue2.Erase adjState 99 = adjState :=
  multiqueue_null_safety adjState 99 0 none (fun _ _ => true) (by decide)

/-- EvictHandle never writes the usage_ counter, in any of its branches. -/
theorem evictHandle_usage_eq (s : MQState) (k : Nat) :
    (InternalMultiQueue.EvictHandle s k).2.usage = s.usage := by
  cases hf : findNode s k with
  | none =>
    have heq : InternalMultiQueue.EvictHandle s k = (MQStatus.corruption, s) := by
      unfold InternalMultiQueue.EvictHandle
      rw [hf]
    rw [heq]
  | some h =>
    have heq : InternalMultiQueue.EvictHandle s k =
        (if 1 ≤ h.reader.FilterUnitsNumber then
          (MQStatus.ok, appendMRU (removeKey s k) (h.reader.FilterUnitsNumber - 1)
            { h with reader := h.reader.EvictFilterEffect })
        else (MQStatus.corruption, s)) := by
      unfold InternalMultiQueue.EvictHandle
      rw [hf]
    rw [heq]
    split <;> rfl

/-- LoadHandle never writes the usage_ counter, in any of its branches. -/
theorem loadHandle_usage_eq (s : MQState) (k : Nat) :
    (InternalMultiQueue.LoadHandle s k).2.usage = s.usage := by
  cases hf : findNode s k with
  | none =>
    have heq : InternalMultiQueue.LoadHandle s k = (MQStatus.corruption, s) := by
      unfold InternalMultiQueue.LoadHandle
      rw [hf]
    rw [heq]
  | some h =>
    have heq : InternalMultiQueue.LoadHandle s k =
        (if h.reader.FilterUnitsNumber < filters_number then
          (if h.reader.FilterUnitsNumber < h.reader.allUnitsNumber && h.reader.readOk then
            (MQStatus.ok, appendMRU (removeKey s k) (h.reader.FilterUnitsNumber + 1)
              { h with reader := h.reader.LoadFilterEffect })
          else (MQStatus.corruption,
            appendMRU (removeKey s k) (h.reader.FilterUnitsNumber + 1) h))
        else (MQStatus.corruption, s)) := by
      unfold InternalMultiQueue.LoadHandle
      rw [hf]
    rw [heq]
    split
    · split <;> rfl
    · rfl

/-- C3 (amended): at every lock boundary each user node sits in the queue
indexed by its reader's resident unit count; the homing is preserved by
Insert of a fresh correctly initialised reader, by Release, by
GoBackToInitFilter and by Erase unconditionally, and by the UpdateHandle
fast path and by Adjustment (the per-victim and hot re-homing included)
whenever the backing-file reads of the resident readers succeed: a hot
load_filter failing on a disk read leaves the hot node re-homed one
queue up with its resident count unchanged, breaking the homing (see the
counterexample). -/
theorem homing_invariant (s : MQState) (k k2 sn : Nat) (psn : Option Nat)
    (reader : FilterReaderState) (hwf : WF s)
    (hreads : ∀ x ∈ allNodes s, x.reader.readOk = true)
    (hfresh : ∀ x ∈ allNodes s, x.key ≠ k)
    (hcnt : reader.filterUnits = reader.initUnitsNumber)
    (hinit : reader.initUnitsNumber ≤ reader.allUnitsNumber)
    (hall : reader.allUnitsNumber ≤ filters_number) :
    Homing s ∧
    Homing (InternalMultiQueue.Insert s k reader) ∧
    Homing (InternalMultiQueue.UpdateHandle s k2 psn) ∧
    Homing (InternalMultiQueue.Adjustment s k2 sn) ∧
    Homing (InternalMultiQueue.Release s k2) ∧
    Homing (InternalMultiQueue.GoBackToInitFilter s k2) ∧
    Homing (InternalMultiQueue.Erase s k2) :=
  ⟨hwf.2.1,
    (insert_spec s k reader hwf hfresh hcnt hinit hall).1.2.1,
    (updateHandle_spec s k2 psn hwf hreads).1.2.1,
    (adjustment_preserves s k2 sn hwf hreads).1.2.1,
    (release_spec s k2 hwf).1.2.1,
    (goBackToInitFilter_spec s k2 hwf).1.2.1,
    (erase_spec s k2 hwf).1.2.1⟩

/-- Witness for the homing invariant on the concrete MultiQueue: the
invariant holds and survives each operation, including the UpdateHandle
at sequence 20000 that applies an adjustment whose backing reads
succeed. -/
theorem homing_invariant_witness :
    Homing adjState ∧
    Homing (InternalMultiQueue.Insert adjState 9 insertReader) ∧
    Homing (InternalMultiQueue.UpdateHandle adjState 1 (some 20000)) ∧
    Homing (InternalMultiQueue.Adjustment adjState 1 20000) ∧
    Homing (InternalMultiQueue.Release adjState 1) ∧
    Homing (InternalMultiQueue.GoBackToInitFilter adjState 1) ∧
    Homing (InternalMultiQueue.Erase adjState 1) :=
  homing_invariant adjState 9 1 20000 (some 20000) insertReader
    (by decide) (by decide) (by decide) (by decide) (by decide) (by decide)

/-- On the concrete MultiQueue whose hot reader is backed by a failing
file read, the adjustment at sequence 20000 passes every guard (the cost
comparison never touches the disk) and runs on the victim set holding
exactly the cold node. -/
theorem badLoadState_applied :
    InternalMultiQueue.AdjustmentApplied badLoadState hotNodeBadRead.key 20000 = true ∧
    InternalMultiQueue.Adjustment badLoadState hotNodeBadRead.key 20000 =
      InternalMultiQueue.ApplyAdjustment badLoadState [victimNode] hotNodeBadRead := by
  have hfind : findNode badLoadState hotNodeBadRead.key = some hotNodeBadRead := by
    decide
  have hcold : InternalMultiQueue.FindColdFilter badLoadState
      hotNodeBadRead.reader.OneUnitSize 20000 = [victimNode] := by decide
  have hcba : InternalMultiQueue.CanBeAdjusted [victimNode] hotNodeBadRead = true :=
    (canBeAdjusted_iff [victimNode] hotNodeBadRead).mpr
      ⟨by decide, by
        norm_num [adjustedIOs, originalIOs, victimNode, hotNodeBadRead,
          FilterReaderState.EvictIOs, FilterReaderState.LoadIOs,
          FilterReaderState.IOs, FilterReaderState.FilterUnitsNumber, mkRat]⟩
  have hguard : (!(InternalMultiQueue.FindColdFilter badLoadState
      hotNodeBadRead.reader.OneUnitSize 20000).isEmpty &&
      InternalMultiQueue.CanBeAdjusted
        (InternalMultiQueue.FindColdFilter badLoadState
          hotNodeBadRead.reader.OneUnitSize 20000) hotNodeBadRead) = true := by
    rw [hcold, hcba]
    decide
  constructor
  · have happ : InternalMultiQueue.AdjustmentApplied badLoadState
        hotNodeBadRead.key 20000 =
        (hotNodeBadRead.reader.CanBeLoaded &&
          (!(InternalMultiQueue.FindColdFilter badLoadState
              hotNodeBadRead.reader.OneUnitSize 20000).isEmpty &&
            InternalMultiQueue.CanBeAdjusted
              (InternalMultiQueue.FindColdFilter badLoadState
                hotNodeBadRead.reader.OneUnitSize 20000) hotNodeBadRead)) := by
      unfold InternalMultiQueue.AdjustmentApplied
      rw [hfind]
    rw [happ, hguard]
    decide
  · rw [adjustment_eq_some badLoadState hotNodeBadRead.key 20000 hotNodeBadRead hfind,
      if_pos (by decide : hotNodeBadRead.reader.CanBeLoaded = true), if_pos hguard,
      hcold]

/-- C3 counterexample: on the concrete MultiQueue whose hot reader is
backed by a failing file read, the adjustment at sequence 20000 passes
every guard and is applied; the victim is evicted and re-homed, but the
hot LoadHandle re-homes the hot node into queues_[2] before the reader
call and the failing LoadFilter leaves its resident count at 1, so the
resulting state breaks the homing invariant at the lock boundary. -/
theorem adjustment_homing_counterexample :
    WF badLoadState ∧
    hotNodeBadRead.reader.readOk = false ∧
    InternalMultiQueue.AdjustmentApplied badLoadState hotNodeBadRead.key 20000 = true ∧
    ¬ Homing (InternalMultiQueue.Adjustment badLoadState hotNodeBadRead.key 20000) := by
  refine ⟨by decide, by decide, badLoadState_applied.1, ?_⟩
  rw [badLoadState_applied.2]
  decide

/-- C2 counterexample: on the concrete MultiQueue the adjustment at
sequence 20000 is applied, its collected victim set is exactly the cold
node with key 2, and the EvictHandle performed on that victim removes one
resident 20-byte unit (the resident bytes drop from 60 to 40) while the
usage_ counter stays 60; the decrement to sub64 60 20 = 40 required by
the claim does not happen at the evict_handle step.  Moreover, when the
hot reader's backing read fails, the whole applied adjustment evicts one
victim unit, loads nothing, and leaves usage_ at 60 against 40 resident
bytes: the accounting itself breaks. -/
theorem evict_step_usage_counterexample :
    InternalMultiQueue.AdjustmentApplied adjState hotNode.key 20000 = true ∧
    InternalMultiQueue.FindColdFilter adjState hotNode.reader.OneUnitSize 20000 =
      [victimNode] ∧
    (InternalMultiQueue.EvictHandle adjState victimNode.key).1 = MQStatus.ok ∧
    sumBytes (InternalMultiQueue.EvictHandle adjState victimNode.key).2 +
      victimNode.reader.OneUnitSize = sumBytes adjState ∧
    (InternalMultiQueue.EvictHandle adjState victimNode.key).2.usage = adjState.usage ∧
    sub64 adjState.usage victimNode.reader.OneUnitSize ≠ adjState.usage ∧
    UsageOK badLoadState ∧
    ¬ UsageOK (InternalMultiQueue.Adjustment badLoadState hotNodeBadRead.key 20000) := by
  refine ⟨?_, by decide, by decide, by decide, by decide, by decide, by decide,
    by rw [badLoadState_applied.2]; decide⟩
  have hfind : findNode adjState hotNode.key = some hotNode := by decide
  have happ : InternalMultiQueue.AdjustmentApplied adjState hotNode.key 20000 =
      (hotNode.reader.CanBeLoaded &&
        (!(InternalMultiQueue.FindColdFilter adjState
            hotNode.reader.OneUnitSize 20000).isEmpty &&
          InternalMultiQueue.CanBeAdjusted
            (InternalMultiQueue.FindColdFilter adjState
              hotNode.reader.OneUnitSize 20000) hotNode)) := by
    unfold InternalMultiQueue.AdjustmentApplied
    rw [hfind]
  have hcold : InternalMultiQueue.FindColdFilter adjState
      hotNode.reader.OneUnitSize 20000 = [victimNode] := by decide
  have hcba : InternalMultiQueue.CanBeAdjusted [victimNode] hotNode = true :=
    (canBeAdjusted_iff [victimNode] hotNode).mpr
      ⟨by decide, by
        norm_num [adjustedIOs, originalIOs, victimNode, hotNode,
          FilterReaderState.EvictIOs, FilterReaderState.LoadIOs,
          FilterReaderState.IOs, FilterReaderState.FilterUnitsNumber, mkRat]⟩
  rw [happ, hcold, hcba]
  decide

/-- C2 (amended): away from the lock, total_charge() is the resident
bytes reduced modulo 2 ^ 64, and this accounting is preserved by Insert
of a fresh correctly initialised reader, by Release, by
GoBackToInitFilter and by Erase, and, whenever the backing-file reads of
the resident readers succeed, by UpdateHandle and by Adjustment:
neither EvictHandle nor LoadHandle ever writes the counter, and an
applied adjustment with a successful hot read balances because the
victim bytes cover exactly one hot unit modulo 2 ^ 64; a hot load_filter
failing on a disk read instead leaves the counter claiming the evicted
victim bytes are still resident (see the counterexample). -/
theorem usage_accounting (s : MQState) (k k2 sn : Nat) (psn : Option Nat)
    (reader : FilterReaderState) (hwf : WF s) (hu : UsageOK s)
    (hreads : ∀ x ∈ allNodes s, x.reader.readOk = true)
    (hfresh : ∀ x ∈ allNodes s, x.key ≠ k)
    (hcnt : reader.filterUnits = reader.initUnitsNumber)
    (hinit : reader.initUnitsNumber ≤ reader.allUnitsNumber)
    (hall : reader.allUnitsNumber ≤ filters_number) :
    InternalMultiQueue.TotalCharge s = sumBytes s % kWordMod ∧
    UsageOK (InternalMultiQueue.Insert s k reader) ∧
    UsageOK (InternalMultiQueue.UpdateHandle s k2 psn) ∧
    UsageOK (InternalMultiQueue.Release s k2) ∧
    UsageOK (InternalMultiQueue.GoBackToInitFilter s k2) ∧
    UsageOK (InternalMultiQueue.Erase s k2) ∧
    (InternalMultiQueue.Adjustment s k2 sn).usage = s.usage ∧
    UsageOK (InternalMultiQueue.Adjustment s k2 sn) ∧
    (InternalMultiQueue.EvictHandle s k2).2.usage = s.usage ∧
    (InternalMultiQueue.LoadHandle s k2).2.usage = s.usage :=
  ⟨hu,
    (insert_spec s k reader hwf hfresh hcnt hinit hall).2 hu,
    (updateHandle_spec s k2 psn hwf hreads).2.2 hu,
    (release_spec s k2 hwf).2 hu,
    (goBackToInitFilter_spec s k2 hwf).2 hu,
    (erase_spec s k2 hwf).2 hu,
    (adjustment_preserves s k2 sn hwf hreads).2.1,
    (adjustment_preserves s k2 sn hwf hreads).2.2 hu,
    evictHandle_usage_eq s k2,
    loadHandle_usage_eq s k2⟩

/-- Witness for the usage accounting on the concrete MultiQueue: the
counter equals the 60 resident bytes and every operation keeps the
accounting, the adjusting UpdateHandle at sequence 20000 (whose backing
reads succeed) included. -/
theorem usage_accounting_witness :
    InternalMultiQueue.TotalCharge adjState = sumBytes adjState % kWordMod ∧
    UsageOK (InternalMultiQueue.Insert adjState 9 insertReader) ∧
    UsageOK (InternalMultiQueue.UpdateHandle adjState 1 (some 20000)) ∧
    UsageOK (InternalMultiQueue.Release adjState 1) ∧
    UsageOK (InternalMultiQueue.GoBackToInitFilter adjState 1) ∧
    UsageOK (InternalMultiQueue.Erase adjState 1) ∧
    (InternalMultiQueue.Adjustment adjState 1 20000).usage = adjState.usage ∧
    UsageOK (InternalMultiQueue.Adjustment adjState 1 20000) ∧
    (InternalMultiQueue.EvictHandle adjState 1).2.usage = adjState.usage ∧
    (InternalMultiQueue.LoadHandle adjState 1).2.usage = adjState.usage :=
  usage_accounting adjState 9 1 20000 (some 20000) insertReader
    (by decide) (by decide) (by decide) (by decide) (by decide) (by decide) (by decide)

/-- The bitmap lengths of one group agree across units when the policy
emits bitmaps of equal length for the same key set. -/
theorem cfB_length (pol : FilterPolicyM)
    (hlenp : ∀ (g : List Nat) (j : Nat),
      (pol.createFilter g j).length = (pol.createFilter g 0).length)
    (g : List Nat) (j : Nat) : (cfB pol g j).length = (cfB pol g 0).length := by
  unfold cfB
  by_cases hg : g.isEmpty = true
  · rw [if_pos hg, if_pos hg]
  · rw [if_neg hg, if_neg hg]
    exact hlenp g j

/-- Iterating the group-level generation: the first flush moves the
buffer into a new group, the later ones append empty groups. -/
theorem gGenerate_iterate (m : Nat) :
    ∀ gb : List (List Nat) × List Nat,
      gGenerate^[m + 1] gb = (gb.1 ++ gb.2 :: List.replicate m ([] : List Nat), []) := by
  induction m with
  | zero =>
    intro gb
    rfl
  | succ mm ih =>
    intro gb
    rw [Function.iterate_succ_apply, ih (gGenerate gb)]
    show ((gb.1 ++ [gb.2]) ++ ([] : List Nat) :: List.replicate mm [], ([] : List Nat)) = _
    rw [List.replicate_succ, List.append_assoc]
    rfl

/-- StartBlock at an index the offset array already reached is a no-op. -/
theorem gStartBlock_le (baseLg : Nat) (gb : List (List Nat) × List Nat) (o : Nat)
    (h : o / 2 ^ baseLg ≤ gb.1.length) : gStartBlock baseLg gb o = gb := by
  unfold gStartBlock
  rw [Nat.sub_eq_zero_of_le h]
  rfl

/-- StartBlock past the generated groups flushes the buffer and pads with
empty groups up to the target index. -/
theorem gStartBlock_gt (baseLg : Nat) (gb : List (List Nat) × List Nat) (o : Nat)
    (h : gb.1.length < o / 2 ^ baseLg) :
    gStartBlock baseLg gb o =
      (gb.1 ++ gb.2 :: List.replicate (o / 2 ^ baseLg - gb.1.length - 1)
        ([] : List Nat), []) := by
  unfold gStartBlock
  have hm : o / 2 ^ baseLg - gb.1.length = (o / 2 ^ baseLg - gb.1.length - 1) + 1 := by
    omega
  rw [hm, gGenerate_iterate]
  simp

/-- StartBlock drives the group count to the maximum of the current count
and the target index. -/
theorem gStartBlock_length (baseLg : Nat) (gb : List (List Nat) × List Nat) (o : Nat) :
    (gStartBlock baseLg gb o).1.length = max gb.1.length (o / 2 ^ baseLg) := by
  by_cases h : o / 2 ^ baseLg ≤ gb.1.length
  · rw [gStartBlock_le baseLg gb o h]
    omega
  · rw [gStartBlock_gt baseLg gb o (by omega)]
    simp only [List.length_append, List.length_cons, List.length_replicate]
    omega

/-- Buffering another key preserves the placement of a recorded key. -/
theorem keyPlaced_gAddKey (i k k2 : Nat) (gb : List (List Nat) × List Nat)
    (h : keyPlaced i k gb) : keyPlaced i k (gAddKey gb k2) := by
  rcases h with h | h
  · exact Or.inl h
  · exact Or.inr ⟨h.1, List.mem_append_left _ h.2⟩

/-- Opening a data block preserves the placement of a recorded key: a
flush moves the buffered keys into exactly the group of their index. -/
theorem keyPlaced_gStartBlock (baseLg i k o : Nat) (gb : List (List Nat) × List Nat)
    (h : keyPlaced i k gb) : keyPlaced i k (gStartBlock baseLg gb o) := by
  by_cases hle : o / 2 ^ baseLg ≤ gb.1.length
  · rw [gStartBlock_le baseLg gb o hle]
    exact h
  · rw [gStartBlock_gt baseLg gb o (by omega)]
    rcases h with ⟨hi, hm⟩ | ⟨hi, hm⟩
    · left
      refine ⟨?_, ?_⟩
      · simp only [List.length_append, List.length_cons, List.length_replicate]
        omega
      · show k ∈ (gb.1 ++ gb.2 :: List.replicate (o / 2 ^ baseLg - gb.1.length - 1)
          ([] : List Nat)).getD i []
        rw [List.getD_eq_getElem?_getD, List.getElem?_append_left hi,
          ← List.getD_eq_getElem?_getD]
        exact hm
    · subst hi
      left
      refine ⟨?_, ?_⟩
      · simp only [List.length_append, List.length_cons, List.length_replicate]
        omega
      · rw [List.getD_eq_getElem?_getD, List.getElem?_append_right (le_refl _),
          Nat.sub_self]
        simp only [List.getElem?_cons_zero, Option.getD_some]
        exact hm

/-- A whole run of builder steps preserves the placement of a recorded
key. -/
theorem keyPlaced_gRun (baseLg i k : Nat) :
    ∀ (steps : List BuildStep) (gb : List (List Nat) × List Nat),
      keyPlaced i k gb → keyPlaced i k (gRun baseLg gb steps) := by
  intro steps
  induction steps with
  | nil =>
    intro gb h
    exact h
  | cons s rest ih =>
    intro gb h
    cases s with
    | startBlock o => exact ih _ (keyPlaced_gStartBlock baseLg i k o gb h)
    | addKey k2 => exact ih _ (keyPlaced_gAddKey i k k2 gb h)

/-- The final generation of Finish puts a recorded key into the group of
its index. -/
theorem keyPlaced_gFinish (i k : Nat) (gb : List (List Nat) × List Nat)
    (h : keyPlaced i k gb) :
    i < (gFinish gb).1.length ∧ k ∈ (gFinish gb).1.getD i [] := by
  unfold gFinish
  rcases h with ⟨hi, hm⟩ | ⟨hi, hm⟩
  · by_cases hbe : gb.2.isEmpty = true
    · rw [if_pos hbe]
      exact ⟨hi, hm⟩
    · rw [if_neg hbe]
      refine ⟨?_, ?_⟩
      · show i < (gb.1 ++ [gb.2]).length
        simp only [List.length_append, List.length_cons, List.length_nil]
        omega
      · show k ∈ (gb.1 ++ [gb.2]).getD i []
        rw [List.getD_eq_getElem?_getD, List.getElem?_append_left hi,
          ← List.getD_eq_getElem?_getD]
        exact hm
  · have hbe : gb.2.isEmpty = false := by
      cases hgb : gb.2 with
      | nil =>
        rw [hgb] at hm
        exact absurd hm (List.not_mem_nil k)
      | cons a l => rfl
    rw [if_neg (by rw [hbe]; exact Bool.false_ne_true)]
    subst hi
    refine ⟨?_, ?_⟩
    · show gb.1.length < (gb.1 ++ [gb.2]).length
      simp only [List.length_append, List.length_cons, List.length_nil]
      omega
    · show k ∈ (gb.1 ++ [gb.2]).getD gb.1.length []
      rw [List.getD_eq_getElem?_getD, List.getElem?_append_right (le_refl _),
        Nat.sub_self]
      simp only [List.getElem?_cons_zero, Option.getD_some]
      exact hm

/-- The group count stays at most i over steps whose block indices stay
at most i. -/
theorem gRun_length_le (baseLg i : Nat) :
    ∀ (steps : List BuildStep) (gb : List (List Nat) × List Nat),
      (∀ o : Nat, BuildStep.startBlock o ∈ steps → o / 2 ^ baseLg ≤ i) →
      gb.1.length ≤ i → (gRun baseLg gb steps).1.length ≤ i := by
  intro steps
  induction steps with
  | nil =>
    intro gb _ h
    exact h
  | cons s rest ih =>
    intro gb hs h
    cases s with
    | startBlock o =>
      refine ih _ (fun o2 ho2 => hs o2 (List.mem_cons_of_mem _ ho2)) ?_
      rw [gStartBlock_length]
      exact max_le h (hs o (List.mem_cons_self _ _))
    | addKey k2 =>
      exact ih _ (fun o2 ho2 => hs o2 (List.mem_cons_of_mem _ ho2)) h

/-- A run containing no StartBlock leaves the generated groups alone. -/
theorem gRun_addKeys_fst (baseLg : Nat) :
    ∀ (steps : List BuildStep) (gb : List (List Nat) × List Nat),
      (∀ x ∈ steps, isStartBlock x = false) → (gRun baseLg gb steps).1 = gb.1 := by
  intro steps
  induction steps with
  | nil =>
    intro gb _
    rfl
  | cons s rest ih =>
    intro gb hs
    cases s with
    | startBlock o =>
      have := hs _ (List.mem_cons_self _ _)
      simp [isStartBlock] at this
    | addKey k2 =>
      exact ih _ (fun x hx => hs x (List.mem_cons_of_mem _ hx))

/-- The offset array has one entry per generated group. -/
theorem offsetsAux_length (pol : FilterPolicyM) :
    ∀ (gs : List (List Nat)) (acc : Nat), (offsetsAux pol gs acc).length = gs.length := by
  intro gs
  induction gs with
  | nil =>
    intro acc
    rfl
  | cons g rest ih =>
    intro acc
    show (acc :: offsetsAux pol rest (acc + (cfB pol g 0).length)).length = _
    rw [List.length_cons, ih]
    rfl

/-- Appending one group appends one offset: the running total so far. -/
theorem offsetsAux_append (pol : FilterPolicyM) (g : List Nat) :
    ∀ (gs : List (List Nat)) (acc : Nat),
      offsetsAux pol (gs ++ [g]) acc =
        offsetsAux pol gs acc ++ [acc + groupBytes pol gs] := by
  intro gs
  induction gs with
  | nil =>
    intro acc
    simp [offsetsAux, groupBytes]
  | cons g2 rest ih =>
    intro acc
    have hgb : groupBytes pol (g2 :: rest) =
        (cfB pol g2 0).length + groupBytes pol rest := by
      unfold groupBytes
      simp
    show acc :: offsetsAux pol (rest ++ [g]) (acc + (cfB pol g2 0).length) =
      (acc :: offsetsAux pol rest (acc + (cfB pol g2 0).length)) ++
        [acc + groupBytes pol (g2 :: rest)]
    rw [ih, hgb, List.cons_append, Nat.add_assoc]

/-- The i-th offset is the byte total of the first i groups. -/
theorem offsetsAux_getD (pol : FilterPolicyM) :
    ∀ (gs : List (List Nat)) (i acc : Nat), i < gs.length →
      (offsetsAux pol gs acc).getD i 0 = acc + groupBytes pol (gs.take i) := by
  intro gs
  induction gs with
  | nil =>
    intro i acc h
    exact absurd h (Nat.not_lt_zero i)
  | cons g rest ih =>
    intro i acc h
    cases i with
    | zero =>
      show (acc :: offsetsAux pol rest (acc + (cfB pol g 0).length)).getD 0 0 =
        acc + groupBytes pol []
      simp [groupBytes]
    | succ i =>
      show (acc :: offsetsAux pol rest (acc + (cfB pol g 0).length)).getD (i + 1) 0 =
        acc + groupBytes pol (g :: rest.take i)
      rw [List.getD_cons_succ,
        ih i (acc + (cfB pol g 0).length)
          (by simp only [List.length_cons] at h; omega)]
      unfold groupBytes
      simp [Nat.add_assoc]

/-- mapIdx over a tabulated list is tabulation of the indexed function. -/
theorem mapIdx_map_range {α β : Type} :
    ∀ (n : Nat) (f : Nat → α) (g : Nat → α → β),
      List.mapIdx g ((List.range n).map f) = (List.range n).map (fun j => g j (f j)) := by
  intro n
  induction n with
  | zero =>
    intro f g
    rfl
  | succ m ih =>
    intro f g
    rw [List.range_succ_eq_map, List.map_cons, List.map_map, List.mapIdx_cons,
      List.map_cons, List.map_map]
    congr 1
    refine (ih (f ∘ Nat.succ) (fun i a => g (i + 1) a)).trans ?_
    apply List.map_congr_left
    intro a _
    rfl

/-- The unit accumulators of no groups are empty. -/
theorem unitsOfGroups_nil (pol : FilterPolicyM) (n : Nat) :
    unitsOfGroups pol n [] = List.replicate n [] := by
  show (List.range n).map (fun _ => ([] : List Nat)) = List.replicate n []
  rw [List.map_const', List.length_range]

/-- Appending one group appends its bitmap to every unit accumulator. -/
theorem unitsOfGroups_append (pol : FilterPolicyM) (n : Nat) (gs : List (List Nat))
    (g : List Nat) :
    unitsOfGroups pol n (gs ++ [g]) =
      (List.range n).map
        (fun j => (gs.map (fun g2 => cfB pol g2 j)).flatten ++ cfB pol g j) := by
  unfold unitsOfGroups
  apply List.map_congr_left
  intro j _
  rw [List.map_append, List.flatten_append]
  simp

/-- Every unit accumulator has the byte total of its groups, when the
policy emits bitmaps of equal length for the same key set. -/
theorem cfB_flatten_length (pol : FilterPolicyM)
    (hlenp : ∀ (g : List Nat) (j : Nat),
      (pol.createFilter g j).length = (pol.createFilter g 0).length)
    (gs : List (List Nat)) (j : Nat) :
    ((gs.map (fun g => cfB pol g j)).flatten).length = groupBytes pol gs := by
  rw [List.length_flatten, List.map_map]
  apply congrArg
  apply List.map_congr_left
  intro g _
  exact cfB_length pol hlenp g j

/-- The length of unit 0 is the byte total of the groups. -/
theorem unitsOfGroups_headD_length (pol : FilterPolicyM) (n : Nat) (hn : 1 ≤ n)
    (gs : List (List Nat)) :
    ((unitsOfGroups pol n gs).headD []).length = groupBytes pol gs := by
  cases n with
  | zero => exact absurd hn (by omega)
  | succ m =>
    show ((((List.range (m + 1)).map
      (fun j => (gs.map (fun g => cfB pol g j)).flatten)).headD [])).length = _
    rw [List.range_succ_eq_map, List.map_cons, List.headD_cons,
      List.length_flatten, List.map_map]
    rfl

/-- The fresh builder is the group-level empty state. -/
theorem represents_empty (pol : FilterPolicyM) (n : Nat) :
    Represents pol n (emptyBuilder n) ([], []) := by
  refine ⟨rfl, rfl, ?_⟩
  show List.replicate n [] = unitsOfGroups pol n []
  rw [unitsOfGroups_nil]

/-- One generation refines the group-level flush. -/
theorem represents_generate (pol : FilterPolicyM) (n : Nat) (hn : 1 ≤ n)
    (b : FilterBlockBuilderB) (gb : List (List Nat) × List Nat)
    (hr : Represents pol n b gb) :
    Represents pol n (GenerateFilter pol b) (gGenerate gb) := by
  obtain ⟨hk, ho, hu⟩ := hr
  have hhead : (b.filterUnits.headD []).length = groupBytes pol gb.1 := by
    rw [hu]
    exact unitsOfGroups_headD_length pol n hn gb.1
  unfold GenerateFilter gGenerate
  by_cases hbe : b.keys.isEmpty = true
  · rw [if_pos hbe]
    have hke : b.keys = [] := List.isEmpty_iff.mp hbe
    have hnil : gb.2 = [] := by rw [← hk]; exact hke
    refine ⟨?_, ?_, ?_⟩
    · show b.keys = []
      exact hke
    · show b.filterOffsets ++ [(b.filterUnits.headD []).length] =
        offsetsAux pol (gb.1 ++ [gb.2]) 0
      rw [ho, hhead, offsetsAux_append, Nat.zero_add]
    · show b.filterUnits = unitsOfGroups pol n (gb.1 ++ [gb.2])
      rw [hu, hnil, unitsOfGroups_append]
      unfold unitsOfGroups
      apply List.map_congr_left
      intro j _
      show (gb.1.map (fun g => cfB pol g j)).flatten =
        (gb.1.map (fun g => cfB pol g j)).flatten ++ cfB pol [] j
      have hc : cfB pol ([] : List Nat) j = [] := rfl
      rw [hc, List.append_nil]
  · rw [if_neg hbe]
    have hnbe : gb.2.isEmpty = false := by
      rw [← hk]
      exact Bool.eq_false_iff.mpr hbe
    refine ⟨rfl, ?_, ?_⟩
    · show b.filterOffsets ++ [(b.filterUnits.headD []).length] =
        offsetsAux pol (gb.1 ++ [gb.2]) 0
      rw [ho, hhead, offsetsAux_append, Nat.zero_add]
    · show b.filterUnits.mapIdx (fun j u => u ++ pol.createFilter b.keys j) =
        unitsOfGroups pol n (gb.1 ++ [gb.2])
      rw [hu, unitsOfGroups_append]
      unfold unitsOfGroups
      rw [mapIdx_map_range]
      apply List.map_congr_left
      intro j _
      congr 1
      unfold cfB
      rw [if_neg (by rw [hnbe]; exact Bool.false_ne_true), hk]

/-- Iterated generation refines iterated group-level flushes. -/
theorem represents_iterate (pol : FilterPolicyM) (n : Nat) (hn : 1 ≤ n) :
    ∀ (m : Nat) (b : FilterBlockBuilderB) (gb : List (List Nat) × List Nat),
      Represents pol n b gb →
      Represents pol n ((GenerateFilter pol)^[m] b) (gGenerate^[m] gb) := by
  intro m
  induction m with
  | zero =>
    intro b gb h
    exact h
  | succ mm ih =>
    intro b gb h
    rw [Function.iterate_succ_apply, Function.iterate_succ_apply]
    exact ih _ _ (represents_generate pol n hn b gb h)

/-- StartBlock refines its group-level view. -/
theorem represents_startBlock (pol : FilterPolicyM) (n baseLg o : Nat) (hn : 1 ≤ n)
    (b : FilterBlockBuilderB) (gb : List (List Nat) × List Nat)
    (h : Represents pol n b gb) :
    Represents pol n (StartBlock pol baseLg b o) (gStartBlock baseLg gb o) := by
  have hlen : b.filterOffsets.length = gb.1.length := by
    rw [h.2.1, offsetsAux_length]
  unfold StartBlock gStartBlock
  rw [hlen]
  exact represents_iterate pol n hn _ b gb h

/-- AddKey refines its group-level view. -/
theorem represents_addKey (pol : FilterPolicyM) (n k : Nat)
    (b : FilterBlockBuilderB) (gb : List (List Nat) × List Nat)
    (h : Represents pol n b gb) :
    Represents pol n (AddKey b k) (gAddKey gb k) := by
  obtain ⟨hk, ho, hu⟩ := h
  refine ⟨?_, ho, hu⟩
  show b.keys ++ [k] = gb.2 ++ [k]
  rw [hk]

/-- A run of builder steps refines its group-level view. -/
theorem represents_run (pol : FilterPolicyM) (n baseLg : Nat) (hn : 1 ≤ n) :
    ∀ (steps : List BuildStep) (b : FilterBlockBuilderB)
      (gb : List (List Nat) × List Nat), Represents pol n b gb →
      Represents pol n (runSteps pol baseLg b steps) (gRun baseLg gb steps) := by
  intro steps
  induction steps with
  | nil =>
    intro b gb h
    exact h
  | cons s rest ih =>
    intro b gb h
    cases s with
    | startBlock o => exact ih _ _ (represents_startBlock pol n baseLg o hn b gb h)
    | addKey k2 => exact ih _ _ (represents_addKey pol n k2 b gb h)

/-- The final generation of Finish refines its group-level view. -/
theorem represents_finish (pol : FilterPolicyM) (n : Nat) (hn : 1 ≤ n)
    (b : FilterBlockBuilderB) (gb : List (List Nat) × List Nat)
    (h : Represents pol n b gb) :
    Represents pol n (FinishState pol b) (gFinish gb) := by
  unfold FinishState gFinish
  rw [h.1]
  by_cases hbe : gb.2.isEmpty = true
  · rw [if_pos hbe, if_pos hbe]
    exact h
  · rw [if_neg hbe, if_neg hbe]
    exact represents_generate pol n hn b gb h

/-- Load and evict requests only move the resident count, and they keep
it within the on-disk unit count. -/
theorem applyFilterOps_fields :
    ∀ (ops : List FilterROp) (r : FilterBlockReaderB),
      (applyFilterOps r ops).offsets = r.offsets ∧
      (applyFilterOps r ops).diskSize = r.diskSize ∧
      (applyFilterOps r ops).allUnitsNumber = r.allUnitsNumber ∧
      (applyFilterOps r ops).fileData = r.fileData ∧
      (r.filterUnitsNumber ≤ r.allUnitsNumber →
        (applyFilterOps r ops).filterUnitsNumber ≤ r.allUnitsNumber) := by
  intro ops
  induction ops with
  | nil =>
    intro r
    exact ⟨rfl, rfl, rfl, rfl, fun h => h⟩
  | cons op rest ih =>
    intro r
    obtain ⟨h1, h2, h3, h4, h5⟩ := ih (applyFilterOp r op)
    have hop : (applyFilterOp r op).offsets = r.offsets ∧
        (applyFilterOp r op).diskSize = r.diskSize ∧
        (applyFilterOp r op).allUnitsNumber = r.allUnitsNumber ∧
        (applyFilterOp r op).fileData = r.fileData ∧
        (r.filterUnitsNumber ≤ r.allUnitsNumber →
          (applyFilterOp r op).filterUnitsNumber ≤ r.allUnitsNumber) := by
      cases op with
      | load =>
        unfold applyFilterOp
        by_cases hc : r.filterUnitsNumber < r.allUnitsNumber
        · rw [if_pos hc]
          exact ⟨rfl, rfl, rfl, rfl, fun _ => by
            show r.filterUnitsNumber + 1 ≤ r.allUnitsNumber
            omega⟩
        · rw [if_neg hc]
          exact ⟨rfl, rfl, rfl, rfl, fun h => h⟩
      | evict =>
        unfold applyFilterOp
        by_cases hc : r.filterUnitsNumber = 0
        · rw [if_pos hc]
          exact ⟨rfl, rfl, rfl, rfl, fun h => h⟩
        · rw [if_neg hc]
          exact ⟨rfl, rfl, rfl, rfl, fun h => by
            show r.filterUnitsNumber - 1 ≤ r.allUnitsNumber
            omega⟩
    refine ⟨h1.trans hop.1, h2.trans hop.2.1, h3.trans hop.2.2.1,
      h4.trans hop.2.2.2.1, ?_⟩
    intro hr
    have hstep := hop.2.2.2.2 hr
    have hmid2 : (applyFilterOp r op).filterUnitsNumber ≤
        (applyFilterOp r op).allUnitsNumber := by
      rw [hop.2.2.1]
      exact hstep
    have hfin := h5 hmid2
    rw [hop.2.2.1] at hfin
    exact hfin

/-- The j-th block of the flattening of equal-length blocks. -/
theorem flatten_drop_take (d : Nat) :
    ∀ (L : List (List Nat)) (j : Nat), (∀ x ∈ L, x.length = d) → j < L.length →
      ((L.flatten.drop (j * d)).take d) = L.getD j [] := by
  intro L
  induction L with
  | nil =>
    intro j _ h
    exact absurd h (Nat.not_lt_zero j)
  | cons x rest ih =>
    intro j hall h
    have hx := hall x (List.mem_cons_self _ _)
    cases j with
    | zero =>
      rw [Nat.zero_mul, List.drop_zero, List.flatten_cons, List.getD_cons_zero,
        ← hx, List.take_left]
    | succ jj =>
      rw [List.flatten_cons, List.getD_cons_succ,
        show (jj + 1) * d = x.length + jj * d by rw [hx]; ring,
        List.drop_append]
      exact ih jj (fun y hy => hall y (List.mem_cons_of_mem _ hy))
        (by simp only [List.length_cons] at h; omega)

/-- Reading a tabulated list at an in-range index. -/
theorem getD_map_range {α : Type} (n j : Nat) (f : Nat → α) (d : α) (h : j < n) :
    ((List.range n).map f).getD j d = f j := by
  rw [List.getD_eq_getElem?_getD, List.getElem?_map, List.getElem?_range h]
  rfl

/-- Slicing the middle block out of a three-part concatenation. -/
theorem drop_take_middle (A B C : List Nat) :
    (((A ++ (B ++ C)).drop A.length).take B.length) = B := by
  rw [List.drop_left, List.take_left]

/-- KeyMayMatch answers true whenever the reader decodes a group list
that holds the probed key at the probed block index: every resident unit
is probed exactly on the bitmap its generation appended for that group,
and the policy has no false negatives. -/
theorem keyMayMatchB_of_groups (pol : FilterPolicyM) (baseLg n b k : Nat)
    (G : List (List Nat)) (r : FilterBlockReaderB)
    (hnfn : ∀ (g : List Nat) (j x : Nat), x ∈ g →
      pol.keyMayMatch x (pol.createFilter g j) j = true)
    (hlenp : ∀ (g : List Nat) (j : Nat),
      (pol.createFilter g j).length = (pol.createFilter g 0).length)
    (hnep : ∀ (g : List Nat) (j : Nat), g ≠ [] → (pol.createFilter g j).length ≠ 0)
    (hiG : b / 2 ^ baseLg < G.length)
    (hkG : k ∈ G.getD (b / 2 ^ baseLg) [])
    (hroff : r.offsets = offsetsAux pol G 0)
    (hrdisk : r.diskSize = groupBytes pol G)
    (hrfile : r.fileData = (unitsOfGroups pol n G).flatten)
    (hfun : r.filterUnitsNumber ≤ n) :
    KeyMayMatchB pol baseLg r b k = true := by
  have hGi := List.getD_eq_getElem G [] hiG
  have hkmem : k ∈ G[b / 2 ^ baseLg] := by
    rw [← hGi]
    exact hkG
  have hgne : G[b / 2 ^ baseLg] ≠ [] := by
    intro hcon
    rw [hcon] at hkmem
    exact absurd hkmem (List.not_mem_nil k)
  have hbemp : (G[b / 2 ^ baseLg]).isEmpty = false :=
    Bool.eq_false_iff.mpr (fun hc => hgne (List.isEmpty_iff.mp hc))
  have hcfB : ∀ j, cfB pol (G[b / 2 ^ baseLg]) j =
      pol.createFilter (G[b / 2 ^ baseLg]) j := by
    intro j
    unfold cfB
    rw [if_neg (by rw [hbemp]; exact Bool.false_ne_true)]
  have htake : G.take (b / 2 ^ baseLg + 1) =
      G.take (b / 2 ^ baseLg) ++ [G[b / 2 ^ baseLg]] := by
    rw [List.take_succ, List.getElem?_eq_getElem hiG]
    rfl
  have hgb_succ : groupBytes pol (G.take (b / 2 ^ baseLg + 1)) =
      groupBytes pol (G.take (b / 2 ^ baseLg)) + (cfB pol (G[b / 2 ^ baseLg]) 0).length := by
    rw [htake]
    unfold groupBytes
    rw [List.map_append, List.sum_append]
    simp
  have hc0 : (cfB pol (G[b / 2 ^ baseLg]) 0).length ≠ 0 := by
    rw [hcfB 0]
    exact hnep _ 0 hgne
  have hstart : r.offsets.getD (b / 2 ^ baseLg) 0 =
      groupBytes pol (G.take (b / 2 ^ baseLg)) := by
    rw [hroff, offsetsAux_getD pol G _ 0 hiG, Nat.zero_add]
  have hlimit : (if b / 2 ^ baseLg + 1 = r.offsets.length then r.diskSize
      else r.offsets.getD (b / 2 ^ baseLg + 1) 0) =
      groupBytes pol (G.take (b / 2 ^ baseLg + 1)) := by
    by_cases hc : b / 2 ^ baseLg + 1 = r.offsets.length
    · rw [if_pos hc, hrdisk]
      have htk : G.take (b / 2 ^ baseLg + 1) = G := by
        apply List.take_of_length_le
        rw [hroff, offsetsAux_length] at hc
        omega
      rw [htk]
    · rw [if_neg hc, hroff]
      have hlt : b / 2 ^ baseLg + 1 < G.length := by
        rw [hroff, offsetsAux_length] at hc
        omega
      rw [offsetsAux_getD pol G _ 0 hlt, Nat.zero_add]
  have hsplitG : G = G.take (b / 2 ^ baseLg) ++
      (G[b / 2 ^ baseLg] :: G.drop (b / 2 ^ baseLg + 1)) := by
    have hts := List.take_append_drop (b / 2 ^ baseLg) G
    rw [List.drop_eq_getElem_cons hiG] at hts
    exact hts.symm
  have hgoal : ∀ j, j < r.filterUnitsNumber →
      pol.keyMayMatch k
        (((residentUnit r j).drop (groupBytes pol (G.take (b / 2 ^ baseLg)))).take
          (groupBytes pol (G.take (b / 2 ^ baseLg + 1)) -
            groupBytes pol (G.take (b / 2 ^ baseLg)))) j = true := by
    intro j hj
    have hjn : j < n := lt_of_lt_of_le hj hfun
    have hlens : ∀ x ∈ (List.range n).map
        (fun j2 => (G.map (fun g => cfB pol g j2)).flatten),
        x.length = groupBytes pol G := by
      intro x hx
      obtain ⟨j2, _, rfl⟩ := List.mem_map.mp hx
      exact cfB_flatten_length pol hlenp G j2
    have hjlen : j < ((List.range n).map
        (fun j2 => (G.map (fun g => cfB pol g j2)).flatten)).length := by
      rw [List.length_map, List.length_range]
      exact hjn
    have hresunit : residentUnit r j = (G.map (fun g => cfB pol g j)).flatten := by
      unfold residentUnit
      rw [hrfile, hrdisk,
        show unitsOfGroups pol n G = (List.range n).map
          (fun j2 => (G.map (fun g => cfB pol g j2)).flatten) from rfl,
        flatten_drop_take (groupBytes pol G) _ j hlens hjlen,
        getD_map_range n j _ [] hjn]
    have hmapsplit : (G.map (fun g => cfB pol g j)).flatten =
        ((G.take (b / 2 ^ baseLg)).map (fun g => cfB pol g j)).flatten ++
          (cfB pol (G[b / 2 ^ baseLg]) j ++
            ((G.drop (b / 2 ^ baseLg + 1)).map (fun g => cfB pol g j)).flatten) := by
      conv_lhs => rw [hsplitG]
      rw [List.map_append, List.flatten_append, List.map_cons, List.flatten_cons]
    have hlen1 : (((G.take (b / 2 ^ baseLg)).map (fun g => cfB pol g j)).flatten).length =
        groupBytes pol (G.take (b / 2 ^ baseLg)) :=
      cfB_flatten_length pol hlenp _ j
    have hdlen : (cfB pol (G[b / 2 ^ baseLg]) j).length =
        groupBytes pol (G.take (b / 2 ^ baseLg + 1)) -
          groupBytes pol (G.take (b / 2 ^ baseLg)) := by
      rw [hgb_succ, cfB_length pol hlenp _ j]
      omega
    have hslice : (((G.map (fun g => cfB pol g j)).flatten).drop
        (groupBytes pol (G.take (b / 2 ^ baseLg)))).take
        (groupBytes pol (G.take (b / 2 ^ baseLg + 1)) -
          groupBytes pol (G.take (b / 2 ^ baseLg))) =
        cfB pol (G[b / 2 ^ baseLg]) j := by
      rw [hmapsplit, ← hdlen, ← hlen1]
      exact drop_take_middle _ _ _
    rw [hresunit, hslice, hcfB j]
    exact hnfn _ j k hkmem
  have hunf : KeyMayMatchB pol baseLg r b k =
      (if r.offsets.length ≤ b / 2 ^ baseLg then true
       else if r.offsets.getD (b / 2 ^ baseLg) 0 =
           (if b / 2 ^ baseLg + 1 = r.offsets.length then r.diskSize
            else r.offsets.getD (b / 2 ^ baseLg + 1) 0) then false
       else (List.range r.filterUnitsNumber).all (fun j =>
           pol.keyMayMatch k
             (((residentUnit r j).drop (r.offsets.getD (b / 2 ^ baseLg) 0)).take
               ((if b / 2 ^ baseLg + 1 = r.offsets.length then r.diskSize
                 else r.offsets.getD (b / 2 ^ baseLg + 1) 0) -
                 r.offsets.getD (b / 2 ^ baseLg) 0)) j)) := rfl
  rw [hunf]
  rw [if_neg (by rw [hroff, offsetsAux_length]; omega)]
  simp only [hstart, hlimit]
  rw [if_neg (by rw [hgb_succ]; omega)]
  rw [List.all_eq_true]
  intro j hj
  exact hgoal j (List.mem_range.mp hj)

/-- C5: no false negatives.  For every key k added to the builder for
the data block opened at offset b (the steps between that StartBlock and
the AddKey open no other block, and the blocks before it map to
offset-array indices at most that of b, as the ascending write order of
the table builder guarantees), and for every legal sequence of load and
evict requests on the reader built from the finished filter block that
leaves at least one resident unit, key_may_match answers true — provided
the policy itself has no false negatives and emits same-length bitmaps
for the same key set.  Modelled from the spec where filter_block.cc is
absent from src (builder, reader and load/evict paging). -/
theorem no_false_negatives (pol : FilterPolicyM) (baseLg initUnits allUnits b k : Nat)
    (pre mid post : List BuildStep) (ops : List FilterROp)
    (hnfn : ∀ (g : List Nat) (j x : Nat), x ∈ g →
      pol.keyMayMatch x (pol.createFilter g j) j = true)
    (hlenp : ∀ (g : List Nat) (j : Nat),
      (pol.createFilter g j).length = (pol.createFilter g 0).length)
    (hnep : ∀ (g : List Nat) (j : Nat), g ≠ [] → (pol.createFilter g j).length ≠ 0)
    (hn1 : 1 ≤ allUnits) (hinit : initUnits ≤ allUnits)
    (hmid : ∀ x ∈ mid, isStartBlock x = false)
    (hpre : ∀ o : Nat, BuildStep.startBlock o ∈ pre → o / 2 ^ baseLg ≤ b / 2 ^ baseLg)
    (hres : 1 ≤ (applyFilterOps
      (readerFromBuilder pol baseLg initUnits allUnits
        (pre ++ BuildStep.startBlock b :: (mid ++ BuildStep.addKey k :: post)))
      ops).filterUnitsNumber) :
    KeyMayMatchB pol baseLg
      (applyFilterOps
        (readerFromBuilder pol baseLg initUnits allUnits
          (pre ++ BuildStep.startBlock b :: (mid ++ BuildStep.addKey k :: post)))
        ops)
      b k = true := by
  have hsplit : ∀ (s1 s2 : List BuildStep) (gb : List (List Nat) × List Nat),
      gRun baseLg gb (s1 ++ s2) = gRun baseLg (gRun baseLg gb s1) s2 := by
    intro s1 s2 gb
    unfold gRun
    rw [List.foldl_append]
  have hplace : keyPlaced (b / 2 ^ baseLg) k
      (gRun baseLg ([], [])
        (pre ++ BuildStep.startBlock b :: (mid ++ BuildStep.addKey k :: post))) := by
    rw [hsplit]
    show keyPlaced (b / 2 ^ baseLg) k
      (gRun baseLg (gStartBlock baseLg (gRun baseLg ([], []) pre) b)
        (mid ++ BuildStep.addKey k :: post))
    rw [hsplit]
    show keyPlaced (b / 2 ^ baseLg) k
      (gRun baseLg
        (gAddKey (gRun baseLg (gStartBlock baseLg (gRun baseLg ([], []) pre) b) mid) k)
        post)
    apply keyPlaced_gRun
    have hlen0 : (gRun baseLg (([] : List (List Nat)), ([] : List Nat)) pre).1.length ≤
        b / 2 ^ baseLg :=
      gRun_length_le baseLg (b / 2 ^ baseLg) pre ([], []) hpre (by simp)
    have hlen1 : (gStartBlock baseLg (gRun baseLg ([], []) pre) b).1.length =
        b / 2 ^ baseLg := by
      rw [gStartBlock_length]
      omega
    have hlen2 : (gRun baseLg (gStartBlock baseLg (gRun baseLg ([], []) pre) b) mid).1 =
        (gStartBlock baseLg (gRun baseLg ([], []) pre) b).1 :=
      gRun_addKeys_fst baseLg mid _ hmid
    refine Or.inr ⟨?_, ?_⟩
    · show (gRun baseLg (gStartBlock baseLg (gRun baseLg ([], []) pre) b) mid).1.length =
        b / 2 ^ baseLg
      rw [hlen2, hlen1]
    · show k ∈ (gRun baseLg (gStartBlock baseLg (gRun baseLg ([], []) pre) b) mid).2 ++ [k]
      exact List.mem_append_right _ (List.mem_singleton_self k)
  have hkey := keyPlaced_gFinish (b / 2 ^ baseLg) k _ hplace
  have hrep : Represents pol allUnits
      (FinishState pol (runSteps pol baseLg (emptyBuilder allUnits)
        (pre ++ BuildStep.startBlock b :: (mid ++ BuildStep.addKey k :: post))))
      (gFinish (gRun baseLg ([], [])
        (pre ++ BuildStep.startBlock b :: (mid ++ BuildStep.addKey k :: post)))) :=
    represents_finish pol allUnits hn1 _ _
      (represents_run pol allUnits baseLg hn1
        (pre ++ BuildStep.startBlock b :: (mid ++ BuildStep.addKey k :: post))
        _ _ (represents_empty pol allUnits))
  obtain ⟨hrk, hro, hru⟩ := hrep
  obtain ⟨hfoff, hfdisk, hfall, hffile, hfub⟩ := applyFilterOps_fields ops
    (readerFromBuilder pol baseLg initUnits allUnits
      (pre ++ BuildStep.startBlock b :: (mid ++ BuildStep.addKey k :: post)))
  apply keyMayMatchB_of_groups pol baseLg allUnits b k
    (gFinish (gRun baseLg ([], [])
      (pre ++ BuildStep.startBlock b :: (mid ++ BuildStep.addKey k :: post)))).1
    _ hnfn hlenp hnep hkey.1 hkey.2
  · exact hfoff.trans hro
  · refine hfdisk.trans ?_
    show ((FinishState pol (runSteps pol baseLg (emptyBuilder allUnits)
      (pre ++ BuildStep.startBlock b :: (mid ++ BuildStep.addKey k :: post)))).filterUnits.headD
        []).length = _
    rw [hru]
    exact unitsOfGroups_headD_length pol allUnits hn1 _
  · refine hffile.trans ?_
    show (FinishState pol (runSteps pol baseLg (emptyBuilder allUnits)
      (pre ++ BuildStep.startBlock b :: (mid ++ BuildStep.addKey k :: post)))).filterUnits.flatten =
        _
    rw [hru]
  · exact hfub hinit

/-- Witness for the no-false-negative theorem: the SingleChunk protocol
with key 1 added for the block at offset 100, a load and an evict leaving
two resident units, probed with the membership policy. -/
theorem no_false_negatives_witness :
    KeyMayMatchB unitPolicy 11
      (applyFilterOps
        (readerFromBuilder unitPolicy 11 1 4
          ([] ++ BuildStep.startBlock 100 :: ([] ++ BuildStep.addKey 1 ::
            [BuildStep.addKey 2, BuildStep.addKey 3, BuildStep.startBlock 200,
             BuildStep.addKey 3, BuildStep.startBlock 300, BuildStep.addKey 4])))
        [FilterROp.load, FilterROp.evict])
      100 1 = true :=
  no_false_negatives unitPolicy 11 1 4 100 1 [] []
    [BuildStep.addKey 2, BuildStep.addKey 3, BuildStep.startBlock 200,
     BuildStep.addKey 3, BuildStep.startBlock 300, BuildStep.addKey 4]
    [FilterROp.load, FilterROp.evict]
    (fun g j x hx => List.elem_iff.mpr hx)
    (fun g j => rfl)
    (fun g j hg h0 => hg (List.length_eq_zero.mp h0))
    (by decide) (by decide)
    (fun x hx => absurd hx (List.not_mem_nil x))
    (fun o ho => absurd ho (List.not_mem_nil _))
    (by decide)

end Paperdb
